import Mathlib

/-!
The btour Markdown-to-files script (`generate_code.cjs` / `create_files.js`)

A shallow embedding of the script and a verification of its specification.

* Strings are lists of characters.  The script reads its input with
  `readFileSync(..., 'utf-8')`, so the text holds no lone surrogate; the regular
  expression has no `u` flag and only distinguishes white space, line
  terminators, and a few ASCII literals, none of which is an astral character, so
  matching by code point and by UTF-16 code unit give the same captures.
* The regular expression is embedded as a backtracking matcher in
  continuation-passing style, the way ECMAScript defines pattern matching:
  a greedy star tries one more character before the continuation, a lazy star
  tries the continuation first.
* `path.resolve`, `path.dirname` and the `fs` calls are the POSIX ones, over
  a file system that maps absolute normalised paths to nodes.  The path of the
  markdown file goes to `existsSync` and `readFileSync` as it was typed, and the
  operating system follows it segment by segment.
* `process.cwd()` throws when the working directory is gone; the working
  directory of a run is `some cwd`, or `none` in that case.
-/

namespace Btour

/-- A string: the list of its characters. -/
abbrev Str := List Char

/-! ## Character classes of the regular expression -/

/-- Line terminators of ECMAScript: what `.` does not match. -/
def isLineTerminator (c : Char) : Bool :=
  c.toNat == 0x0A || c.toNat == 0x0D || c.toNat == 0x2028 || c.toNat == 0x2029

/-- The class `\s` of ECMAScript (white space and line terminators); it is also
the set of characters that `String.prototype.trim` strips. -/
def isSpace (c : Char) : Bool :=
  (0x09 ≤ c.toNat && c.toNat ≤ 0x0D) || c.toNat == 0x20 || c.toNat == 0xA0 ||
  c.toNat == 0x1680 || (0x2000 ≤ c.toNat && c.toNat ≤ 0x200A) ||
  c.toNat == 0x2028 || c.toNat == 0x2029 || c.toNat == 0x202F ||
  c.toNat == 0x205F || c.toNat == 0x3000 || c.toNat == 0xFEFF

/-- The class `.` (no `s` flag): any character but a line terminator. -/
def isDot (c : Char) : Bool := !isLineTerminator c

/-- The class `[\s\S]`: any character. -/
def isAny (_ : Char) : Bool := true

/-- The method `String.prototype.trim`: strip `\s` characters from both ends. -/
def trim (s : Str) : Str :=
  ((s.dropWhile isSpace).reverse.dropWhile isSpace).reverse

/-! ## The backtracking matcher -/

/-- Strip a literal prefix. -/
def stripLit : Str → Str → Option Str
  | [], inp => some inp
  | _ :: _, [] => none
  | c :: cs, d :: ds => if c = d then stripLit cs ds else none

/-- A literal: match its characters, then the continuation. -/
def lit {α : Type} (l : Str) (k : Str → Option α) (inp : Str) : Option α :=
  match stripLit l inp with
  | some rest => k rest
  | none => none

/-- Greedy star of a character class (`\s*`): take one more character first, and
fall back to the continuation at the current position. -/
def starGreedy {α : Type} (p : Char → Bool) (k : Str → Option α) : Str → Option α
  | [] => k []
  | c :: cs =>
    if p c then
      match starGreedy p k cs with
      | some r => some r
      | none => k (c :: cs)
    else k (c :: cs)

/-- Lazy star of a character class with its capture (`(.*?)`, `([\s\S]*?)`, and
`\s*?` when the capture is ignored): try the continuation first, and take one
more character when it fails.  `acc` is what has been captured so far. -/
def starLazy {α : Type} (p : Char → Bool) (k : Str → Str → Option α) (acc : Str) :
    Str → Option α
  | [] => k acc []
  | c :: cs =>
    match k acc (c :: cs) with
    | some r => some r
    | none => if p c then starLazy p k (acc ++ [c]) cs else none

/-- A successful match: the two capture groups and the text after the match
(the text from the new `lastIndex` on). -/
structure Match where
  path : Str
  body : Str
  rest : Str
deriving DecidableEq, Repr

/-- The opening fence with its language tag. -/
def openFence : Str := "```markdown".toList

/-- The closing fence. -/
def fence : Str := "```".toList

/-- The regular expression
`/```markdown\s*\/\/\s*FILE:\s*(.*?)\s*?\n([\s\S]*?)```/` matched at the start of
`inp`. -/
def codeBlockRegex (inp : Str) : Option Match :=
  lit openFence (
  starGreedy isSpace (
  lit "//".toList (
  starGreedy isSpace (
  lit "FILE:".toList (
  starGreedy isSpace (
  starLazy isDot (fun g1 =>
  starLazy isSpace (fun _ =>
  lit "\n".toList (
  starLazy isAny (fun g2 =>
  lit fence (fun rest => some ⟨g1, g2, rest⟩)) [])) []) [])))))) inp

/-- One call `codeBlockRegex.exec(markdownContent)`: the argument is the text
from `lastIndex` on; the match is tried at each start position from left to
right, and `none` is JavaScript's `null`. -/
def exec : Str → Option Match
  | [] => codeBlockRegex []
  | c :: cs =>
    match codeBlockRegex (c :: cs) with
    | some m => some m
    | none => exec cs

/-- All matches of the loop `while ((match = codeBlockRegex.exec(..)) !== null)`,
in the order the loop meets them; the fuel bounds the number of iterations. -/
def matchesFuel : Nat → Str → List Match
  | 0, _ => []
  | n + 1, s =>
    match exec s with
    | none => []
    | some m => m :: matchesFuel n m.rest

/-- The matches of a text; no text has as many matches as characters. -/
def allMatches (s : Str) : List Match := matchesFuel s.length s

/-! ## Paths (`path.resolve`, `path.dirname`, POSIX) -/

/-- An absolute normalised path: its segments from the root down; `[]` is `/`. -/
abbrev Path := List Str

/-- Split a string at every `/`. -/
def splitSlash : Str → List Str
  | [] => [[]]
  | c :: cs =>
    if c = '/' then [] :: splitSlash cs
    else
      match splitSlash cs with
      | [] => [[c]]
      | seg :: segs => (c :: seg) :: segs

/-- Normalisation of `path.resolve` for an absolute path, one segment
at a time: empty segments and `.` are dropped, `..` removes the last segment kept
so far (and is dropped at the root), any other segment is kept. -/
def normalizeSegs (stack : Path) : List Str → Path
  | [] => stack
  | seg :: segs =>
    if seg = [] ∨ seg = ".".toList then normalizeSegs stack segs
    else if seg = "..".toList then normalizeSegs stack.dropLast segs
    else normalizeSegs (stack ++ [seg]) segs

/-- The call `path.resolve(process.cwd(), rel)` on POSIX, `cwd` being the absolute path
that `process.cwd()` returns: an absolute `rel` is normalised alone, any other
is joined to the working directory first. -/
def pathResolve (cwd rel : Str) : Path :=
  if rel.head? = some '/' then normalizeSegs [] (splitSlash rel)
  else normalizeSegs [] (splitSlash (cwd ++ '/' :: rel))

/-- The function `path.dirname` on an absolute normalised path; the root is its own parent. -/
def dirname (p : Path) : Path := p.dropLast

/-- The working directory as a path. -/
def cwdPath (cwd : Str) : Path := normalizeSegs [] (splitSlash cwd)

/-! ## The file-system interface the script uses -/

/-- The `fs` calls of the script over a state `σ`.  A call that throws returns
`false` with the state it leaves behind.  In the loop body the calls get what
`path.resolve` returned, an absolute normalised path: `existsSync`, `mkdirSync`,
`writeFileSync`.  Before the loop, `existsSync` and `readFileSync` get
`process.argv[2]` as it was typed, and the operating system follows it from the
working directory of the process (`none` when that directory is gone):
`existsSyncArg`, `readFileSync`; `readFileSync` returns `none` when it throws. -/
structure FsOps (σ : Type) where
  existsSync : σ → Path → Bool
  mkdirSync : σ → Path → σ × Bool
  writeFileSync : σ → Path → Str → σ × Bool
  existsSyncArg : σ → Option Str → Str → Bool
  readFileSync : σ → Option Str → Str → Option Str

/-- What the script prints. -/
inductive Msg where
  | usage
  | notFound (arg : Str)
  | processing (arg : Str)
  | skipWarning
  | createdDirectory (dir : Path)
  | wroteFile (file : Path)
  | errorProcessing (rel : Str)
  | successSummary (count : Nat)
  | noFilesFound
  | errorReading
deriving DecidableEq, Repr

/-- Messages of `console.error` and `console.warn` go to standard error. -/
def Msg.toStderr : Msg → Bool
  | .usage | .notFound _ | .skipWarning | .errorProcessing _ | .errorReading => true
  | _ => false

/-- The two messages of the final summary. -/
def Msg.isSummary : Msg → Bool
  | .successSummary _ | .noFilesFound => true
  | _ => false

/-- The state of a run: the file system, the counter and what was printed. -/
structure RunState (σ : Type) where
  fs : σ
  filesCreated : Nat
  log : List Msg

/-- The `writeFileSync` step of the loop body and what follows it: the success
message and `filesCreated++`, or the `catch` branch. -/
def writeStep {σ : Type} (ops : FsOps σ) (rel : Str) (file : Path) (content : Str)
    (fs : σ) (count : Nat) (log : List Msg) : RunState σ :=
  match ops.writeFileSync fs file content with
  | (fs2, true) => ⟨fs2, count + 1, log ++ [Msg.wroteFile file]⟩
  | (fs2, false) => ⟨fs2, count, log ++ [Msg.errorProcessing rel]⟩

/-- The body of the `while` loop for one match. -/
def processMatch {σ : Type} (ops : FsOps σ) (cwd : Str) (st : RunState σ) (m : Match) :
    RunState σ :=
  let relativeFilePath := trim m.path
  let codeContent := trim m.body
  if relativeFilePath = [] then
    ⟨st.fs, st.filesCreated, st.log ++ [Msg.skipWarning]⟩
  else
    let absoluteFilePath := pathResolve cwd relativeFilePath
    let directoryPath := dirname absoluteFilePath
    if ops.existsSync st.fs directoryPath then
      writeStep ops relativeFilePath absoluteFilePath codeContent st.fs st.filesCreated st.log
    else
      match ops.mkdirSync st.fs directoryPath with
      | (fs1, true) =>
        writeStep ops relativeFilePath absoluteFilePath codeContent fs1 st.filesCreated
          (st.log ++ [Msg.createdDirectory directoryPath])
      | (fs1, false) => ⟨fs1, st.filesCreated, st.log ++ [Msg.errorProcessing relativeFilePath]⟩

/-- The `while` loop: `s` is the text from `lastIndex` on. -/
def loop {σ : Type} (ops : FsOps σ) (cwd : Str) : Nat → Str → RunState σ → RunState σ
  | 0, _, st => st
  | n + 1, s, st =>
    match exec s with
    | none => st
    | some m => loop ops cwd n m.rest (processMatch ops cwd st m)

/-- The final summary message. -/
def summary (filesCreated : Nat) : Msg :=
  if filesCreated > 0 then Msg.successSummary filesCreated else Msg.noFilesFound

/-- The end of a run: the file system, the counter, the output and the exit
code. -/
structure Outcome (σ : Type) where
  fs : σ
  filesCreated : Nat
  log : List Msg
  exitCode : Nat

/-- The part of the script inside the outer `try`, once the file has been read, when
`process.cwd()` returns `cwd`: the loop and the summary. -/
def processText {σ : Type} (ops : FsOps σ) (cwd : Str) (text : Str) (st : RunState σ) :
    RunState σ :=
  let st1 := loop ops cwd text.length text st
  ⟨st1.fs, st1.filesCreated, st1.log ++ [summary st1.filesCreated]⟩

/-- One turn of the loop body with the working directory of the process: line 44
calls `process.cwd()` for a match with a marker path, and that call throws when the
working directory is gone; the exception leaves the loop (`true`).  A match without
marker path is skipped before that line. -/
def runMatch {σ : Type} (ops : FsOps σ) (cwd : Option Str) (st : RunState σ) (m : Match) :
    RunState σ × Bool :=
  match cwd with
  | some c => (processMatch ops c st m, false)
  | none =>
    if trim m.path = [] then (⟨st.fs, st.filesCreated, st.log ++ [Msg.skipWarning]⟩, false)
    else (st, true)

/-- The `while` loop with the working directory of the process: the state it
ends in and whether an exception left it. -/
def runLoop {σ : Type} (ops : FsOps σ) (cwd : Option Str) :
    Nat → Str → RunState σ → RunState σ × Bool
  | 0, _, st => (st, false)
  | n + 1, s, st =>
    match exec s with
    | none => (st, false)
    | some m =>
      match runMatch ops cwd st m with
      | (st1, true) => (st1, true)
      | (st1, false) => runLoop ops cwd n m.rest st1

/-- The whole script.  `arg` is `process.argv[2]` (`none` when it is `undefined`);
`!markdownFilePath` holds for `undefined` and for the empty string.  `cwd` is the
working directory of the process, `none` when it is gone.  `existsSync` and
`readFileSync` get the argument as it is.  The outer `catch` takes what
`readFileSync` throws and what `process.cwd()` throws in the loop: it prints the
error and exits with code 1, and no summary is printed.  Writing to the console
is taken not to throw. -/
def main {σ : Type} (ops : FsOps σ) (cwd : Option Str) (arg : Option Str) (fs : σ) :
    Outcome σ :=
  match arg with
  | none => ⟨fs, 0, [Msg.usage], 1⟩
  | some markdownFilePath =>
    if markdownFilePath = [] then ⟨fs, 0, [Msg.usage], 1⟩
    else if !ops.existsSyncArg fs cwd markdownFilePath then
      ⟨fs, 0, [Msg.notFound markdownFilePath], 1⟩
    else
      match ops.readFileSync fs cwd markdownFilePath with
      | none => ⟨fs, 0, [Msg.processing markdownFilePath, Msg.errorReading], 1⟩
      | some markdownContent =>
        match runLoop ops cwd markdownContent.length markdownContent
            ⟨fs, 0, [Msg.processing markdownFilePath]⟩ with
        | (st, true) => ⟨st.fs, st.filesCreated, st.log ++ [Msg.errorReading], 1⟩
        | (st, false) => ⟨st.fs, st.filesCreated, st.log ++ [summary st.filesCreated], 0⟩

/-! ## A POSIX file system -/

/-- A node of the file system. -/
inductive Node where
  | file (content : Str)
  | dir
deriving DecidableEq, Repr

/-- A file system: the node at each absolute normalised path, if any. -/
abbrev FS := Path → Option Node

/-- A file system is a tree: the root is a directory and the parent of every
node is a directory. -/
def FS.WF (fs : FS) : Prop :=
  fs [] = some Node.dir ∧ ∀ p : Path, fs p ≠ none → fs (dirname p) = some Node.dir

/-- Put a node at a path. -/
def FS.set (fs : FS) (p : Path) (n : Node) : FS :=
  fun q => if q = p then some n else fs q

/-- The call `fs.existsSync`: whether there is a node at the path. -/
def posixExists (fs : FS) (p : Path) : Bool := (fs p).isSome

/-- The walk of `fs.mkdirSync(dir, recursive)` from the root down: `done` is the
part of the path already a directory, `todo` the segments still to go.  A
directory met on the way is kept, a missing one is created, a file stops the
walk with an error. -/
def mkdirWalk (fs : FS) (done : Path) : List Str → FS × Bool
  | [] => (fs, true)
  | seg :: segs =>
    match fs (done ++ [seg]) with
    | some Node.dir => mkdirWalk fs (done ++ [seg]) segs
    | some (Node.file _) => (fs, false)
    | none => mkdirWalk (fs.set (done ++ [seg]) Node.dir) (done ++ [seg]) segs

/-- The call `fs.mkdirSync(dir, recursive)`. -/
def posixMkdir (fs : FS) (p : Path) : FS × Bool := mkdirWalk fs [] p

/-- The call `fs.writeFileSync`: it needs the parent to be a directory and the target not
to be one; it creates the file or replaces its content. -/
def posixWrite (fs : FS) (p : Path) (c : Str) : FS × Bool :=
  match fs (dirname p), fs p with
  | some Node.dir, some Node.dir => (fs, false)
  | some Node.dir, _ => (fs.set p (Node.file c), true)
  | _, _ => (fs, false)

/-- The content of the file at a path; a directory or a missing path cannot be
read. -/
def posixRead (fs : FS) (p : Path) : Option Str :=
  match fs p with
  | some (Node.file c) => some c
  | _ => none

/-- The operating system following the segments of a path as it was typed, from
the place `cur` on: every segment, the empty one after a `/` and `.` included, needs
the place reached so far to be a directory (a file followed by `/` is not found),
`..` goes to the parent of that directory, and the place reached at the end has to
exist.  Nothing is simplified beforehand: `missing/../in.md` is not found when
`missing` does not exist. -/
def osWalk (fs : FS) (cur : Path) : List Str → Option Path
  | [] => if (fs cur).isSome then some cur else none
  | seg :: segs =>
    if fs cur = some Node.dir then
      if seg = [] ∨ seg = ".".toList then osWalk fs cur segs
      else if seg = "..".toList then osWalk fs cur.dropLast segs
      else osWalk fs (cur ++ [seg]) segs
    else none

/-- The place a path as it was typed leads to: from the root when it starts with
`/`, from the working directory otherwise; the empty path leads nowhere, and so
does a relative path when the working directory is gone. -/
def osResolve (fs : FS) (cwd : Option Str) (raw : Str) : Option Path :=
  if raw = [] then none
  else if raw.head? = some '/' then osWalk fs [] (splitSlash raw)
  else
    match cwd with
    | some c => osWalk fs (cwdPath c) (splitSlash raw)
    | none => none

/-- The call `fs.existsSync(markdownFilePath)` on the path as it was typed. -/
def posixExistsArg (fs : FS) (cwd : Option Str) (raw : Str) : Bool :=
  (osResolve fs cwd raw).isSome

/-- The call `fs.readFileSync(markdownFilePath, utf-8)` on the path as it was
typed. -/
def posixReadArg (fs : FS) (cwd : Option Str) (raw : Str) : Option Str :=
  match osResolve fs cwd raw with
  | some p => posixRead fs p
  | none => none

/-- The POSIX file system as the interface of the script. -/
def posix : FsOps FS := ⟨posixExists, posixMkdir, posixWrite, posixExistsArg, posixReadArg⟩

/-- A file system with nothing but the given directory and its ancestors. -/
def onlyDir (d : Path) : FS := fun q => if q <+: d then some Node.dir else none

/-! ## Documents made of well-formed blocks -/

/-- A well-formed block: the opening fence, the marker line with `path`, the
`body` on the following lines, and the closing fence on a line of its own. -/
def block (path body : Str) : Str :=
  openFence ++ "\n// FILE: ".toList ++ path ++ "\n".toList ++ body ++ "\n".toList ++ fence

/-- A document: some text, then blocks `(path, body)` each followed by some
text `sep`. -/
def document (lead : Str) : List (Str × Str × Str) → Str
  | [] => lead
  | (path, body, sep) :: items => lead ++ block path body ++ document sep items

/-- The messages that report a file written. -/
def Msg.isWrote : Msg → Bool
  | .wroteFile _ => true
  | _ => false

/-- The messages of the `catch` branch of the loop body. -/
def Msg.isError : Msg → Bool
  | .errorProcessing _ => true
  | _ => false

/-- The messages that report a directory created. -/
def Msg.isCreatedDir : Msg → Bool
  | .createdDirectory _ => true
  | _ => false

/-- The loop body over a list of matches, in order. -/
def processAll {σ : Type} (ops : FsOps σ) (cwd : Str) (st : RunState σ) (ms : List Match) :
    RunState σ :=
  ms.foldl (processMatch ops cwd) st

/-- The first statement of the `try` block of the loop body: the directory is
created when `existsSync` does not find it.  The result is the file system after
it and whether it completed without throwing. -/
def dirReady {σ : Type} (ops : FsOps σ) (fs : σ) (dir : Path) : σ × Bool :=
  if ops.existsSync fs dir then (fs, true) else ops.mkdirSync fs dir

/-- The file-system calls of the `try` block of the loop body for a match: the
file system they leave and whether both completed without throwing. -/
def attempt {σ : Type} (ops : FsOps σ) (cwd : Str) (fs : σ) (m : Match) : σ × Bool :=
  match dirReady ops fs (dirname (pathResolve cwd (trim m.path))) with
  | (fs1, true) => ops.writeFileSync fs1 (pathResolve cwd (trim m.path)) (trim m.body)
  | (fs1, false) => (fs1, false)

/-- The number of matches whose `try` block completes (the file is written), the
loop starting on the file system `fs`. -/
def countWritten {σ : Type} (ops : FsOps σ) (cwd : Str) : σ → List Match → Nat
  | _, [] => 0
  | fs, m :: ms =>
    if trim m.path = [] then countWritten ops cwd fs ms
    else (if (attempt ops cwd fs m).2 = true then 1 else 0)
      + countWritten ops cwd (attempt ops cwd fs m).1 ms

/-- A text with two blocks: the first names the working directory itself, which
cannot be written as a file, the second a file. -/
def demoFailThenWrite : Str :=
  "```markdown\n// FILE: .\nx\n```\n```markdown\n// FILE: a.txt\nhello\n```".toList

/-- A working directory `/w` holding the markdown file `in.md` with the given
content. -/
def demoFs (content : Str) : FS :=
  (onlyDir ["w".toList]).set ["w".toList, "in.md".toList] (Node.file content)

/-- A text with one valid block. -/
def demoOneBlock : Str := "```markdown\n// FILE: a.txt\nhello\n```".toList

/-- A file system with the directory `/data` holding the markdown file `in.md`
with the given content. -/
def demoDataFs (content : Str) : FS :=
  (onlyDir ["data".toList]).set ["data".toList, "in.md".toList] (Node.file content)

/-- A file can be written at `f`: no proper ancestor of `f` is a file and `f` is
not a directory. -/
def FS.canWrite (fs : FS) (f : Path) : Prop :=
  (∀ q, q <+: f → q ≠ f → ∀ c, fs q ≠ some (Node.file c)) ∧ fs f ≠ some Node.dir

/-- The file system with the file `f` holding `c` and every missing ancestor of
`f` created as a directory; nothing else is touched. -/
def FS.written (fs : FS) (f : Path) (c : Str) : FS :=
  fun q => if q = f then some (Node.file c)
    else if q <+: f ∧ fs q = none then some Node.dir else fs q

/-- Whether a node is a directory. -/
def Node.isDir : Node → Bool
  | .dir => true
  | .file _ => false

/-- Two file systems with the same nodes up to the content of the files. -/
def FS.sameShape (t u : FS) : Prop :=
  ∀ q, (t q).map Node.isDir = (u q).map Node.isDir

/-- A text with one block whose marker path climbs out of the working directory. -/
def demoEscape : Str := "```markdown\n// FILE: ../x.txt\nhi\n```".toList

/-- A text with one block whose marker path is absolute. -/
def demoAbsolute : Str := "```markdown\n// FILE: /etc/x.txt\nhi\n```".toList

/-- A text with three blocks for the same file, the last under another spelling
of its path. -/
def demoThreeWrites : Str :=
  ("```markdown\n// FILE: a.txt\n1\n```\n```markdown\n// FILE: a.txt\n2\n```\n" ++
    "```markdown\n// FILE: ./a.txt\n3\n```\n").toList

/-- The text of `generate_code.cjs` from the line after its marker line
`// FILE: create_files.js` up to the first triple backtick (which stands in the
comment that describes the regular expression). -/
def generateCodeBody : Str :=
  ("const fs = require('fs');\n" ++
    "const path = require('path');\n" ++
    "\n" ++
    "const markdownFilePath = process.argv[2]; // Get Markdown file path from command line argument\n" ++
    "\n" ++
    "if (!markdownFilePath) \x7b\n" ++
    "    console.error('Usage: node create_files.js <path_to_markdown_file.md>');\n" ++
    "    process.exit(1);\n" ++
    "\x7d\n" ++
    "\n" ++
    "if (!fs.existsSync(markdownFilePath)) \x7b\n" ++
    "    console.error(`Error: Markdown file not found at $\x7bmarkdownFilePath\x7d`);\n" ++
    "    process.exit(1);\n" ++
    "\x7d\n" ++
    "\n" ++
    "console.log(`Processing Markdown file: $\x7bmarkdownFilePath\x7d`);\n" ++
    "\n" ++
    "try \x7b\n" ++
    "    const markdownContent = fs.readFileSync(markdownFilePath, 'utf-8');\n" ++
    "\n" ++
    "    // Regex to find Dart code blocks with the file marker\n" ++
    "    // ").toList

/-- The text of `create_files.js`. -/
def createFilesJs : Str :=
  ("const fs = require('fs');\n" ++
    "const path = require('path');\n" ++
    "\n" ++
    "const markdownFilePath = process.argv[2]; // Get Markdown file path from command line argument\n" ++
    "\n" ++
    "if (!markdownFilePath) \x7b\n" ++
    "    console.error('Usage: node create_files.js <path_to_markdown_file.md>');\n" ++
    "    process.exit(1);\n" ++
    "\x7d\n" ++
    "\n" ++
    "if (!fs.existsSync(markdownFilePath)) \x7b\n" ++
    "    console.error(`Error: Markdown file not found at $\x7bmarkdownFilePath\x7d`);\n" ++
    "    process.exit(1);\n" ++
    "\x7d\n" ++
    "\n" ++
    "console.log(`Processing Markdown file: $\x7bmarkdownFilePath\x7d`);\n" ++
    "\n" ++
    "try \x7b\n" ++
    "    const markdownContent = fs.readFileSync(markdownFilePath, 'utf-8');\n" ++
    "\n" ++
    "    // Regex to find Dart code blocks with the file marker\n" ++
    "    //\n").toList

end Btour


/-! ## The matcher: what a success means and when it succeeds -/

namespace Btour
open List

theorem stripLit_eq_some {l inp rest : Str} : stripLit l inp = some rest ↔ inp = l ++ rest := by
  induction l generalizing inp with
  | nil => simp [stripLit, eq_comm]
  | cons c cs ih =>
    cases inp with
    | nil => simp [stripLit]
    | cons d ds =>
      by_cases h : c = d
      · subst h; simp [stripLit, ih]
      · simp [stripLit, h]; intro h2; exact absurd h2.symm h

theorem stripLit_eq_none {l inp : Str} : stripLit l inp = none ↔ ¬ l <+: inp := by
  constructor
  · intro h ⟨t, ht⟩
    rw [stripLit_eq_some.mpr ht.symm] at h
    cases h
  · intro h
    cases hs : stripLit l inp with
    | none => rfl
    | some r => exact absurd ⟨r, (stripLit_eq_some.mp hs).symm⟩ h

theorem lit_append {α : Type} (l : Str) (k : Str → Option α) (rest : Str) :
    lit l k (l ++ rest) = k rest := by
  simp [lit, stripLit_eq_some.mpr rfl]

theorem lit_eq_some {α : Type} {l : Str} {k : Str → Option α} {inp : Str} {r : α} :
    lit l k inp = some r ↔ ∃ rest, inp = l ++ rest ∧ k rest = some r := by
  unfold lit
  cases hs : stripLit l inp with
  | none =>
    constructor
    · intro h; cases h
    · rintro ⟨rest, h, -⟩
      rw [stripLit_eq_some.mpr h] at hs
      cases hs
  | some x =>
    have hx := stripLit_eq_some.mp hs
    constructor
    · intro h; exact ⟨x, hx, h⟩
    · rintro ⟨rest, h1, h2⟩
      have : x = rest := by rw [hx] at h1; exact List.append_cancel_left h1
      subst this; exact h2

theorem lit_eq_none_of_not_prefix {α : Type} {l : Str} (k : Str → Option α) {inp : Str}
    (h : ¬ l <+: inp) : lit l k inp = none := by
  simp [lit, stripLit_eq_none.mpr h]

/-- A greedy star that can take all of `ws` and no more, with a continuation
that succeeds there, returns what the continuation returns there. -/
theorem starGreedy_max {α : Type} (p : Char → Bool) (k : Str → Option α) (ws rest : Str) (r : α)
    (hws : ∀ c ∈ ws, p c = true) (hrest : ∀ c ∈ rest.head?, p c = false)
    (hk : k rest = some r) : starGreedy p k (ws ++ rest) = some r := by
  induction ws with
  | nil =>
    cases rest with
    | nil => simpa [starGreedy] using hk
    | cons c cs =>
      have : p c = false := hrest c (by simp)
      simp [starGreedy, this, hk]
  | cons w ws ih =>
    have hw : p w = true := hws w (by simp)
    have := ih (fun c hc => hws c (by simp [hc]))
    simp [starGreedy, hw, this]

/-- What a greedy star returns comes from the continuation after a run of
characters of the class. -/
theorem starGreedy_eq_some {α : Type} {p : Char → Bool} {k : Str → Option α} {inp : Str} {r : α}
    (h : starGreedy p k inp = some r) :
    ∃ ws rest, inp = ws ++ rest ∧ (∀ c ∈ ws, p c = true) ∧ k rest = some r := by
  induction inp with
  | nil => exact ⟨[], [], rfl, by simp, by simpa [starGreedy] using h⟩
  | cons c cs ih =>
    unfold starGreedy at h
    by_cases hc : p c = true
    · rw [if_pos hc] at h
      cases hg : starGreedy p k cs with
      | some x =>
        rw [hg] at h
        have hx : x = r := by simpa using h
        subst hx
        obtain ⟨ws, rest, h1, h2, h3⟩ := ih hg
        refine ⟨c :: ws, rest, by simp [h1], ?_, h3⟩
        intro d hd
        rcases List.mem_cons.mp hd with rfl | hd
        · exact hc
        · exact h2 d hd
      | none =>
        rw [hg] at h
        exact ⟨[], c :: cs, rfl, by simp, h⟩
    · rw [if_neg hc] at h
      exact ⟨[], c :: cs, rfl, by simp, h⟩

/-- A lazy star stops at the first place where the continuation succeeds. -/
theorem starLazy_first {α : Type} (p : Char → Bool) (k : Str → Str → Option α)
    (a rest acc : Str) (r : α) (ha : ∀ c ∈ a, p c = true)
    (hk : k (acc ++ a) rest = some r)
    (hmin : ∀ a1 a2, a = a1 ++ a2 → a2 ≠ [] → k (acc ++ a1) (a2 ++ rest) = none) :
    starLazy p k acc (a ++ rest) = some r := by
  induction a generalizing acc with
  | nil =>
    simp only [List.append_nil] at hk
    cases rest with
    | nil => simpa [starLazy] using hk
    | cons c cs => simp [starLazy, hk]
  | cons x xs ih =>
    have h0 : k acc (x :: xs ++ rest) = none := by
      simpa using hmin [] (x :: xs) rfl (by simp)
    have hx : p x = true := ha x (by simp)
    have := ih (acc ++ [x]) (fun c hc => ha c (by simp [hc])) (by simpa using hk)
      (fun a1 a2 h12 hne => by simpa using hmin (x :: a1) a2 (by simp [h12]) hne)
    have h0' : k acc (x :: (xs ++ rest)) = none := h0
    show starLazy p k acc (x :: (xs ++ rest)) = some r
    unfold starLazy
    rw [h0']
    simp only [hx, if_true]
    exact this

/-- What a lazy star returns comes from the continuation after a run of
characters of the class, and the continuation fails everywhere before. -/
theorem starLazy_eq_some {α : Type} {p : Char → Bool} {k : Str → Str → Option α}
    {acc inp : Str} {r : α} (h : starLazy p k acc inp = some r) :
    ∃ a rest, inp = a ++ rest ∧ (∀ c ∈ a, p c = true) ∧ k (acc ++ a) rest = some r ∧
      ∀ a1 a2, a = a1 ++ a2 → a2 ≠ [] → k (acc ++ a1) (a2 ++ rest) = none := by
  induction inp generalizing acc with
  | nil =>
    refine ⟨[], [], rfl, by simp, by simpa [starLazy] using h, ?_⟩
    intro a1 a2 h12 hne
    have := List.append_eq_nil.mp h12.symm
    exact absurd this.2 hne
  | cons c cs ih =>
    unfold starLazy at h
    cases hk : k acc (c :: cs) with
    | some x =>
      rw [hk] at h
      have hx : x = r := by simpa using h
      subst hx
      refine ⟨[], c :: cs, rfl, by simp, by simpa using hk, ?_⟩
      intro a1 a2 h12 hne
      have := List.append_eq_nil.mp h12.symm
      exact absurd this.2 hne
    | none =>
      rw [hk] at h
      by_cases hc : p c = true
      · simp only [hc, if_true] at h
        obtain ⟨a, rest, h1, h2, h3, h4⟩ := ih h
        refine ⟨c :: a, rest, by simp [h1], ?_, by simpa using h3, ?_⟩
        · intro d hd
          rcases List.mem_cons.mp hd with rfl | hd
          · exact hc
          · exact h2 d hd
        · intro a1 a2 h12 hne
          cases a1 with
          | nil =>
            simp only [List.nil_append] at h12
            subst h12
            simpa [h1] using hk
          | cons y ys =>
            simp only [List.cons_append, List.cons.injEq] at h12
            obtain ⟨rfl, h12⟩ := h12
            simpa using h4 ys a2 h12 hne
      · simp [hc] at h

/-- A lazy `[\s\S]*?` followed by the closing fence succeeds whenever a fence
lies ahead. -/
theorem starLazy_any_fence_ne_none {α : Type} (f : Str → Str → α) (x y acc : Str) :
    starLazy isAny (fun g => lit fence (fun rest => some (f g rest))) acc (x ++ fence ++ y) ≠ none := by
  induction x generalizing acc with
  | nil =>
    have h : lit fence (fun rest => some (f acc rest)) (fence ++ y) = some (f acc y) := lit_append _ _ _
    have h2 : fence ++ y = '\x60' :: ('\x60' :: '\x60' :: y) := rfl
    simp only [List.nil_append]
    rw [h2] at h ⊢
    unfold starLazy
    rw [h]
    simp
  | cons c cs ih =>
    show starLazy isAny _ acc (c :: (cs ++ fence ++ y)) ≠ none
    unfold starLazy
    cases hk : lit fence (fun rest => some (f acc rest)) (c :: (cs ++ fence ++ y)) with
    | some r => simp
    | none => simpa [isAny] using ih (acc ++ [c])

/-- The shape of a text that the regular expression matches from its start on, and
what the two groups capture. -/
theorem codeBlockRegex_eq_some {inp : Str} {m : Match} (h : codeBlockRegex inp = some m) :
    ∃ ws1 ws2 ws3 ws4 : Str,
      inp = openFence ++ ws1 ++ "//".toList ++ ws2 ++ "FILE:".toList ++ ws3 ++ m.path ++ ws4 ++
        "\n".toList ++ m.body ++ fence ++ m.rest ∧
      (∀ c ∈ ws1, isSpace c = true) ∧ (∀ c ∈ ws2, isSpace c = true) ∧
      (∀ c ∈ ws3, isSpace c = true) ∧ (∀ c ∈ ws4, isSpace c = true) ∧
      (∀ c ∈ m.path, isDot c = true) ∧ '\n' ∉ ws4 ∧
      (∀ b1 b2, m.body = b1 ++ b2 → b2 ≠ [] → ¬ fence <+: b2 ++ fence ++ m.rest) := by
  unfold codeBlockRegex at h
  obtain ⟨r1, e1, h⟩ := lit_eq_some.mp h
  obtain ⟨ws1, r2, e2, hws1, h⟩ := starGreedy_eq_some h
  obtain ⟨r3, e3, h⟩ := lit_eq_some.mp h
  obtain ⟨ws2, r4, e4, hws2, h⟩ := starGreedy_eq_some h
  obtain ⟨r5, e5, h⟩ := lit_eq_some.mp h
  obtain ⟨ws3, r6, e6, hws3, h⟩ := starGreedy_eq_some h
  obtain ⟨g1, r7, e7, hg1, h, -⟩ := starLazy_eq_some h
  obtain ⟨ws4, r8, e8, hws4, h, hmin4⟩ := starLazy_eq_some h
  obtain ⟨r9, e9, h⟩ := lit_eq_some.mp h
  obtain ⟨g2, r10, e10, -, h, hmin2⟩ := starLazy_eq_some h
  obtain ⟨r11, e11, h⟩ := lit_eq_some.mp h
  simp only [List.nil_append, Option.some.injEq] at h
  subst h
  refine ⟨ws1, ws2, ws3, ws4, ?_, hws1, hws2, hws3, hws4, hg1, ?_, ?_⟩
  · simp only [e1, e2, e3, e4, e5, e6, e7, e8, e9, e10, e11, List.append_assoc]
  · intro hmem
    obtain ⟨a1, a2, e⟩ := List.append_of_mem hmem
    have hn := hmin4 a1 ('\n' :: a2) e (by simp)
    have e' : '\n' :: a2 ++ r8 = "\n".toList ++ (a2 ++ "\n".toList ++ g2 ++ fence ++ r11) := by
      simp [e9, e10, e11]
    rw [e', lit_append] at hn
    have := starLazy_any_fence_ne_none (fun g rest => (⟨g1, g, rest⟩ : Match))
      (a2 ++ "\n".toList ++ g2) r11 []
    exact this hn
  · intro b1 b2 e hne hpre
    have hn := hmin2 b1 b2 e hne
    simp only [List.nil_append] at hn
    rw [e11] at hn
    obtain ⟨t, ht⟩ := hpre
    have e' : b2 ++ (fence ++ r11) = fence ++ t := by rw [← List.append_assoc]; exact ht.symm
    rw [e', lit_append] at hn
    cases hn

/-- The function `exec` returns the match at the leftmost position where the regular expression
matches. -/
theorem exec_eq_some {s : Str} {m : Match} (h : exec s = some m) :
    ∃ pre suf, s = pre ++ suf ∧ codeBlockRegex suf = some m ∧
      ∀ p1 p2, pre = p1 ++ p2 → p2 ≠ [] → codeBlockRegex (p2 ++ suf) = none := by
  induction s with
  | nil =>
    refine ⟨[], [], rfl, by simpa [exec] using h, ?_⟩
    intro p1 p2 e hne
    exact absurd (List.append_eq_nil.mp e.symm).2 hne
  | cons c cs ih =>
    unfold exec at h
    cases hc : codeBlockRegex (c :: cs) with
    | some x =>
      rw [hc] at h
      have hx : x = m := by simpa using h
      subst hx
      refine ⟨[], c :: cs, rfl, hc, ?_⟩
      intro p1 p2 e hne
      exact absurd (List.append_eq_nil.mp e.symm).2 hne
    | none =>
      rw [hc] at h
      obtain ⟨pre, suf, e, hm, hmin⟩ := ih h
      refine ⟨c :: pre, suf, by simp [e], hm, ?_⟩
      intro p1 p2 e12 hne
      cases p1 with
      | nil =>
        simp only [List.nil_append] at e12
        subst e12
        simpa [e] using hc
      | cons y ys =>
        simp only [List.cons_append, List.cons.injEq] at e12
        exact hmin ys p2 e12.2 hne

/-- No match anywhere: `exec` returns `null`. -/
theorem exec_eq_none {s : Str} (h : ∀ p1 p2, s = p1 ++ p2 → codeBlockRegex p2 = none) :
    exec s = none := by
  induction s with
  | nil => simpa [exec] using h [] [] rfl
  | cons c cs ih =>
    unfold exec
    rw [h [] (c :: cs) rfl]
    exact ih (fun p1 p2 e => h (c :: p1) p2 (by simp [e]))

/-- A match found after a prefix where the regular expression matches nowhere. -/
theorem exec_skip {pre suf : Str} {m : Match} (hm : codeBlockRegex suf = some m)
    (hmin : ∀ p1 p2, pre = p1 ++ p2 → p2 ≠ [] → codeBlockRegex (p2 ++ suf) = none) :
    exec (pre ++ suf) = some m := by
  induction pre with
  | nil =>
    cases suf with
    | nil => simpa [exec] using hm
    | cons c cs => simp [exec, hm]
  | cons c cs ih =>
    show exec (c :: (cs ++ suf)) = some m
    unfold exec
    have h0 : codeBlockRegex (c :: (cs ++ suf)) = none := hmin [] (c :: cs) rfl (by simp)
    rw [h0]
    exact ih (fun p1 p2 e hne => hmin (c :: p1) p2 (by simp [e]) hne)

/-- A match consumes at least the opening fence: the text left is shorter. -/
theorem exec_rest_length {s : Str} {m : Match} (h : exec s = some m) :
    m.rest.length < s.length := by
  obtain ⟨pre, suf, e, hm, -⟩ := exec_eq_some h
  obtain ⟨ws1, ws2, ws3, ws4, e2, -⟩ := codeBlockRegex_eq_some hm
  subst e
  rw [e2]
  simp only [List.length_append, openFence, fence]
  simp
  omega

/-- The loop never runs out of fuel: any fuel from the length of the text on
gives the same matches. -/
theorem matchesFuel_stable (n : Nat) (s : Str) (h : s.length ≤ n) :
    matchesFuel n s = allMatches s := by
  unfold allMatches
  induction n using Nat.strong_induction_on generalizing s with
  | _ n ih =>
    cases n with
    | zero =>
      have : s.length = 0 := by omega
      rw [this]
    | succ k =>
      cases hs : s.length with
      | zero =>
        have : s = [] := List.length_eq_zero.mp hs
        subst this
        simp [matchesFuel, exec, codeBlockRegex, lit, stripLit, openFence]
      | succ j =>
        unfold matchesFuel
        cases he : exec s with
        | none => rfl
        | some m =>
          have hl := exec_rest_length he
          simp only
          rw [ih k (by omega) m.rest (by omega), ih j (by omega) m.rest (by omega)]

/-- Every match of the loop is a match of the regular expression at some position
of the text. -/
theorem mem_matchesFuel {n : Nat} {s : Str} {m : Match} (h : m ∈ matchesFuel n s) :
    ∃ pre suf, s = pre ++ suf ∧ codeBlockRegex suf = some m := by
  induction n generalizing s with
  | zero => simp [matchesFuel] at h
  | succ k ih =>
    unfold matchesFuel at h
    cases he : exec s with
    | none => simp [he] at h
    | some m0 =>
      simp only [he, List.mem_cons] at h
      obtain ⟨pre, suf, e, hm, -⟩ := exec_eq_some he
      rcases h with rfl | h
      · exact ⟨pre, suf, e, hm⟩
      · obtain ⟨pre2, suf2, e2, hm2⟩ := ih h
        obtain ⟨ws1, ws2, ws3, ws4, e3, -⟩ := codeBlockRegex_eq_some hm
        refine ⟨pre ++ openFence ++ ws1 ++ "//".toList ++ ws2 ++ "FILE:".toList ++ ws3 ++ m0.path
          ++ ws4 ++ "\n".toList ++ m0.body ++ fence ++ pre2, suf2, ?_, hm2⟩
        rw [e, e3, e2]
        simp only [List.append_assoc]

theorem trim_within (s : Str) : trim s <:+: s := by
  have h1 : trim s <+: s.dropWhile isSpace := by
    have := @List.rdropWhile_prefix _ isSpace (s.dropWhile isSpace)
    simpa [trim, List.rdropWhile] using this
  exact h1.isInfix.trans (List.dropWhile_suffix isSpace).isInfix

/-! ## C1: a document of well-formed blocks -/

theorem rdropWhile_append_rtakeWhile_self (p : Char → Bool) (l : Str) :
    l.rdropWhile p ++ l.rtakeWhile p = l := by
  have h := List.takeWhile_append_dropWhile p l.reverse
  have h2 := congrArg List.reverse h
  rw [List.reverse_append, List.reverse_reverse] at h2
  exact h2

/-- A string with a character that is not white space is its `trim` between two
runs of white space, and its `trim` starts and ends with such a character. -/
theorem trim_decomp (s : Str) (h : ∃ c ∈ s, isSpace c = false) :
    ∃ lead trail x init y, s = lead ++ trim s ++ trail ∧
      (∀ c ∈ lead, isSpace c = true) ∧ (∀ c ∈ trail, isSpace c = true) ∧
      (trim s).head? = some x ∧ isSpace x = false ∧ trim s = init ++ [y] ∧ isSpace y = false := by
  obtain ⟨c0, hc0, hsp0⟩ := h
  have hd : s.dropWhile isSpace ≠ [] := by
    intro hnil
    have := (List.dropWhile_eq_nil_iff).mp hnil c0 hc0
    simp [hsp0] at this
  have htrim : trim s = (s.dropWhile isSpace).rdropWhile isSpace := rfl
  have hne : trim s ≠ [] := by
    rw [htrim]
    intro hnil
    have hall := (List.rdropWhile_eq_nil_iff).mp hnil
    have hhead := List.head_dropWhile_not isSpace s hd
    have := hall _ (List.head_mem hd)
    simp [this] at hhead
  have hsplit : s = s.takeWhile isSpace ++ trim s ++ (s.dropWhile isSpace).rtakeWhile isSpace := by
    rw [htrim, List.append_assoc, rdropWhile_append_rtakeWhile_self,
      List.takeWhile_append_dropWhile]
  have hpre : trim s <+: s.dropWhile isSpace := by rw [htrim]; exact List.rdropWhile_prefix _ _
  obtain ⟨x, xs, hx⟩ := List.exists_cons_of_ne_nil hne
  have hxsp : isSpace x = false := by
    have hhead := List.head_dropWhile_not isSpace s hd
    obtain ⟨t, ht⟩ := hpre
    have : (s.dropWhile isSpace).head hd = x := by
      simp [← ht, hx]
    rw [this] at hhead
    simpa using hhead
  have hlast := List.rdropWhile_last_not (p := isSpace) (l := s.dropWhile isSpace)
    (by rw [← htrim]; exact hne)
  refine ⟨s.takeWhile isSpace, (s.dropWhile isSpace).rtakeWhile isSpace, x,
    (trim s).dropLast, (trim s).getLast hne, hsplit, ?_, ?_, by simp [hx], hxsp,
    (List.dropLast_append_getLast hne).symm, ?_⟩
  · intro c hc
    exact List.mem_takeWhile_imp hc
  · intro c hc
    have : c ∈ ((s.dropWhile isSpace).reverse.takeWhile isSpace) := by
      simpa [List.rtakeWhile] using hc
    exact List.mem_takeWhile_imp this
  · simpa [htrim] using hlast

/-- The lazy `\s*?` followed by a newline fails when a character that is not
white space comes before any newline. -/
theorem starLazy_space_newline_none {α : Type} (k : Str → Option α) (u v acc : Str) (c : Char)
    (hu : ∀ d ∈ u, d ≠ '\n') (hc : isSpace c = false) :
    starLazy isSpace (fun _ => lit "\n".toList k) acc (u ++ c :: v) = none := by
  have hcn : c ≠ '\n' := by
    rintro rfl
    simp [isSpace] at hc
  induction u generalizing acc with
  | nil =>
    have : lit "\n".toList k (c :: v) = none := by
      simp [lit, stripLit, Ne.symm hcn]
    show starLazy isSpace _ acc (c :: v) = none
    unfold starLazy
    rw [this]
    simp [hc]
  | cons d ds ih =>
    have hd : d ≠ '\n' := hu d (by simp)
    have : lit "\n".toList k (d :: (ds ++ c :: v)) = none := by
      simp [lit, stripLit, Ne.symm hd]
    show starLazy isSpace _ acc (d :: (ds ++ c :: v)) = none
    unfold starLazy
    rw [this]
    by_cases hsp : isSpace d = true
    · simp only [hsp, if_true]
      exact ih _ (fun d hd => hu d (by simp [hd]))
    · simp [hsp]

/-- A literal that is a prefix of `u ++ c :: v` and does not hold `c` is a prefix
of `u`. -/
theorem prefix_of_not_mem {l u v : Str} {c : Char} (h : l <+: u ++ c :: v) (hc : c ∉ l) :
    l <+: u := by
  rcases List.prefix_or_prefix_of_prefix h (List.prefix_append u (c :: v)) with h1 | h1
  · exact h1
  · obtain ⟨w, hw⟩ := h1
    obtain ⟨z, hz⟩ := h
    rw [← hw, List.append_assoc] at hz
    have hz' := List.append_cancel_left hz
    cases w with
    | nil => exact ⟨[], by simpa using hw.symm⟩
    | cons a w' =>
      simp only [List.cons_append, List.cons.injEq] at hz'
      exact absurd (by rw [← hw, hz'.1]; simp) hc

/-- The regular expression on a marker line `// FILE: path` with a path that has
a character other than white space and no line terminator, followed by a body up to
the first fence: group 1 is the trimmed path, group 2 the body. -/
theorem codeBlockRegex_of_shape (path g2 tail : Str)
    (hp : ∀ c ∈ path, isLineTerminator c = false) (hns : ∃ c ∈ path, isSpace c = false)
    (hg2 : ∀ b1 b2, g2 = b1 ++ b2 → b2 ≠ [] → ¬ fence <+: b2 ++ (fence ++ tail)) :
    codeBlockRegex (openFence ++ "\n// FILE: ".toList ++ path ++ "\n".toList ++ g2 ++ fence ++ tail)
      = some ⟨trim path, g2, tail⟩ := by
  obtain ⟨lead, trail, x, init, y, hsplit, hlead, htrail, hhead, hx, hlast, hy⟩ :=
    trim_decomp path hns
  generalize trim path = T at *
  subst hsplit
  have hnl : ∀ c ∈ lead ++ T ++ trail, c ≠ '\n' := by
    intro c hc e
    have := hp c hc
    rw [e] at this
    simp [isLineTerminator] at this
  have hin : openFence ++ "\n// FILE: ".toList ++ (lead ++ T ++ trail) ++ "\n".toList ++ g2 ++ fence
      ++ tail = openFence ++ (['\n'] ++ ("//".toList ++ ([' '] ++ ("FILE:".toList ++
        ((' ' :: lead) ++ (T ++ (trail ++ ("\n".toList ++ (g2 ++ (fence ++ tail)))))))))) := by
    simp [List.append_assoc]
  unfold codeBlockRegex
  rw [hin, lit_append]
  refine starGreedy_max _ _ ['\n'] _ _ (by simp [isSpace]) (by simp [isSpace]) ?_
  rw [lit_append]
  refine starGreedy_max _ _ [' '] _ _ (by simp [isSpace]) (by simp [isSpace]) ?_
  rw [lit_append]
  refine starGreedy_max _ _ (' ' :: lead) _ _ ?_ ?_ ?_
  · intro c hc
    rcases List.mem_cons.mp hc with rfl | hc
    · simp [isSpace]
    · exact hlead c hc
  · intro c hc
    have hT : T ≠ [] := by rw [hlast]; simp
    obtain ⟨t0, ts, hts⟩ := List.exists_cons_of_ne_nil hT
    subst hts
    simp only [List.head?_cons, Option.some.injEq] at hhead
    subst hhead
    simp only [List.cons_append, List.head?_cons, Option.mem_def, Option.some.injEq] at hc
    subst hc
    exact hx
  refine starLazy_first _ _ T _ [] _ ?_ ?_ ?_
  · intro c hc
    have := hp c (by simp [hc])
    simp [isDot, this]
  · simp only [List.nil_append]
    refine starLazy_first _ _ trail _ [] _ htrail ?_ ?_
    · rw [lit_append]
      refine starLazy_first _ _ g2 _ [] _ (by simp [isAny]) ?_ ?_
      · simp only [List.nil_append]
        rw [lit_append]
      · intro b1 b2 e hne
        exact lit_eq_none_of_not_prefix _ (hg2 b1 b2 e hne)
    · intro t1 t2 e hne
      apply lit_eq_none_of_not_prefix
      obtain ⟨c, cs, hcs⟩ := List.exists_cons_of_ne_nil hne
      subst hcs
      have hc : c ≠ '\n' := hnl c (by simp [e])
      intro hpre
      simp only [List.cons_append, String.toList, List.cons_prefix_cons] at hpre
      exact hc hpre.1.symm
  · intro a1 a2 e hne
    rcases List.eq_nil_or_concat a2 with h0 | ⟨u, z, hz⟩
    · exact absurd h0 hne
    · rw [List.concat_eq_append] at hz
      subst hz
      rw [hlast, ← List.append_assoc] at e
      obtain ⟨e1, e2⟩ := List.append_inj' e rfl
      simp only [List.cons.injEq, and_true] at e2
      subst e2
      have hu : ∀ d ∈ u, d ≠ '\n' := by
        intro d hd
        exact hnl d (by rw [hlast, e1]; simp [hd])
      have := starLazy_space_newline_none
        (starLazy isAny (fun g2 => lit fence (fun rest => some (⟨[] ++ a1, g2, rest⟩ : Match))) [])
        u (trail ++ ("\n".toList ++ (g2 ++ (fence ++ tail)))) [] y hu hy
      simpa [List.append_assoc] using this

/-- The regular expression on a well-formed block. -/
theorem codeBlockRegex_block (path body tail : Str)
    (hp : ∀ c ∈ path, isLineTerminator c = false) (hns : ∃ c ∈ path, isSpace c = false)
    (hb : ¬ fence <:+: body) :
    codeBlockRegex (block path body ++ tail) = some ⟨trim path, body ++ "\n".toList, tail⟩ := by
  have h := codeBlockRegex_of_shape path (body ++ "\n".toList) tail hp hns ?_
  · rw [← h]
    simp [block, List.append_assoc]
  · intro b1 b2 e hne hpre
    rcases List.eq_nil_or_concat b2 with h0 | ⟨u, z, hz⟩
    · exact hne h0
    · rw [List.concat_eq_append] at hz
      subst hz
      rw [← List.append_assoc] at e
      obtain ⟨e1, e2⟩ := List.append_inj' e rfl
      have hz : z = '\n' := by simpa using e2.symm
      subst hz
      have hpre' : fence <+: u ++ '\n' :: (fence ++ tail) := by simpa [List.append_assoc] using hpre
      have hu := prefix_of_not_mem hpre' (by simp [fence])
      exact hb (e1 ▸ (hu.isInfix.trans (List.infix_append' b1 u []) |> fun h => by simpa using h))

/-- No fence starts inside a text that holds no triple backtick and does not end
with a backtick, whatever follows. -/
theorem no_fence_start (g2 tail : Str) (h1 : ¬ fence <:+: g2)
    (h2 : ∀ c ∈ g2.getLast?, c ≠ '\x60') :
    ∀ b1 b2, g2 = b1 ++ b2 → b2 ≠ [] → ¬ fence <+: b2 ++ (fence ++ tail) := by
  intro b1 b2 e hne hpre
  rcases List.eq_nil_or_concat b2 with h0 | ⟨u, z, hz⟩
  · exact hne h0
  · rw [List.concat_eq_append] at hz
    subst hz
    have hz : z ≠ '\x60' := h2 z (by rw [e, ← List.append_assoc]; simp)
    have hpre' : fence <+: u ++ z :: (fence ++ tail) := by
      simpa [List.append_assoc] using hpre
    have hu : fence <+: u := prefix_of_not_mem hpre' (by
      intro hmem
      simp only [fence, String.toList, List.mem_cons, List.mem_singleton, List.not_mem_nil,
        or_false, or_self] at hmem
      exact hz hmem)
    apply h1
    rw [e]
    obtain ⟨t, ht⟩ := hu
    exact ⟨b1, t ++ [z], by rw [← ht]; simp⟩

set_option maxRecDepth 100000 in
theorem generateCodeBody_no_fence :
    ¬ fence <:+: generateCodeBody ∧ (∀ c ∈ generateCodeBody.getLast?, c ≠ '\x60') := by
  decide

set_option maxRecDepth 100000 in
theorem trim_generateCodeBody : trim generateCodeBody ++ "\n".toList = createFilesJs := by
  decide

/-- The first match of the loop on the text of `generate_code.cjs` put after an
opening fence: the path is `create_files.js` and group 2 ends at the first triple
backtick of the comment, whatever follows it. -/
theorem exec_generateCode (rest : Str) :
    exec (openFence ++ "\n// FILE: create_files.js\n".toList ++ generateCodeBody ++ fence ++ rest)
      = some ⟨"create_files.js".toList, generateCodeBody, rest⟩ := by
  have h := codeBlockRegex_of_shape "create_files.js".toList generateCodeBody rest (by decide)
    (by decide)
    (no_fence_start generateCodeBody rest generateCodeBody_no_fence.1 generateCodeBody_no_fence.2)
  have ht : trim "create_files.js".toList = "create_files.js".toList := by decide
  rw [ht] at h
  have e : openFence ++ "\n// FILE: create_files.js\n".toList ++ generateCodeBody ++ fence ++ rest
      = openFence ++ "\n// FILE: ".toList ++ "create_files.js".toList ++ "\n".toList
        ++ generateCodeBody ++ fence ++ rest := by
    simp [List.append_assoc]
  rw [e]
  exact @exec_skip [] _ _ h (fun p1 p2 e2 hne =>
    absurd (List.append_eq_nil.mp e2.symm).2 hne)

/-! ## C3: the body capture ends at the first closing fence -/

/-- C3: every match of the loop lies in the text as
`...` + opening fence + `\s*` + `//` + `\s*` + `FILE:` + `\s*` + group 1 + `\s*?` + newline +
group 2 + closing fence + the text left; group 1 and the white space after it hold
no newline, so that newline ends the line of the captured marker; the closing
fence is the first triple backtick after that newline (no fence starts inside
group 2), and the content written, `trim` of group 2, holds no triple backtick.
So a body that holds a triple backtick is cut there: the text of `generate_code.cjs`
put after an opening fence gives, whatever follows its first triple backtick, the
path `create_files.js` and as content the text of `create_files.js` (without the
newline that ends that file). -/
theorem C3_body_ends_at_first_fence (text : Str) (m : Match) (hm : m ∈ allMatches text) :
    (∃ pre ws1 ws2 ws3 ws4 : Str,
      text = pre ++ openFence ++ ws1 ++ "//".toList ++ ws2 ++ "FILE:".toList ++ ws3 ++ m.path ++
        ws4 ++ "\n".toList ++ m.body ++ fence ++ m.rest ∧
      (∀ c ∈ ws1 ++ ws2 ++ ws3 ++ ws4, isSpace c = true) ∧
      (∀ c ∈ m.path, isLineTerminator c = false) ∧ '\n' ∉ m.path ++ ws4 ∧
      (∀ b1 b2, m.body = b1 ++ b2 → b2 ≠ [] → ¬ fence <+: b2 ++ fence ++ m.rest) ∧
      ¬ fence <:+: m.body ∧ trim m.body <:+: m.body ∧ ¬ fence <:+: trim m.body) ∧
    ((∀ rest : Str,
        exec (openFence ++ "\n// FILE: create_files.js\n".toList ++ generateCodeBody ++ fence
          ++ rest) = some ⟨"create_files.js".toList, generateCodeBody, rest⟩) ∧
      trim generateCodeBody ++ "\n".toList = createFilesJs) := by
  refine ⟨?_, exec_generateCode, trim_generateCodeBody⟩
  obtain ⟨pre, suf, e, hreg⟩ := mem_matchesFuel hm
  obtain ⟨ws1, ws2, ws3, ws4, e2, h1, h2, h3, h4, hp, hn, hmin⟩ := codeBlockRegex_eq_some hreg
  have hbody : ¬ fence <:+: m.body := by
    rintro ⟨a, b, hab⟩
    refine hmin a (fence ++ b) (by rw [← hab]; simp) (by simp [fence]) ?_
    exact ⟨b ++ fence ++ m.rest, by simp⟩
  have hp' : ∀ c ∈ m.path, isLineTerminator c = false := by
    intro c hc
    simpa [isDot] using hp c hc
  refine ⟨pre, ws1, ws2, ws3, ws4, ?_, ?_, hp', ?_, hmin, hbody, trim_within _, ?_⟩
  · rw [e, e2]; simp only [List.append_assoc]
  · intro c hc
    simp only [List.mem_append] at hc
    rcases hc with ((hc | hc) | hc) | hc
    · exact h1 c hc
    · exact h2 c hc
    · exact h3 c hc
    · exact h4 c hc
  · intro hmem
    rcases List.mem_append.mp hmem with hmem | hmem
    · have := hp' _ hmem
      simp [isLineTerminator] at this
    · exact hn hmem
  · exact fun h => hbody (h.trans (trim_within _))

/-- C3 at a body that holds a triple backtick: the content is cut there. -/
theorem C3_body_ends_at_first_fence_witness :
    (⟨"a.md".toList, "one ".toList, " two\n```\n".toList⟩ : Match) ∈
        allMatches "```markdown\n// FILE: a.md\none ``` two\n```\n".toList ∧
      ∃ pre ws1 ws2 ws3 ws4 : Str,
        "```markdown\n// FILE: a.md\none ``` two\n```\n".toList =
          pre ++ openFence ++ ws1 ++ "//".toList ++ ws2 ++ "FILE:".toList ++ ws3 ++ "a.md".toList ++
          ws4 ++ "\n".toList ++ "one ".toList ++ fence ++ " two\n```\n".toList ∧
        (∀ c ∈ ws1 ++ ws2 ++ ws3 ++ ws4, isSpace c = true) ∧
        (∀ c ∈ "a.md".toList, isLineTerminator c = false) ∧ '\n' ∉ "a.md".toList ++ ws4 ∧
        (∀ b1 b2, "one ".toList = b1 ++ b2 → b2 ≠ [] → ¬ fence <+: b2 ++ fence ++ " two\n```\n".toList) ∧
        ¬ fence <:+: "one ".toList ∧ trim "one ".toList <:+: "one ".toList ∧
        ¬ fence <:+: trim "one ".toList :=
  ⟨by decide, (C3_body_ends_at_first_fence _ ⟨"a.md".toList, "one ".toList, " two\n```\n".toList⟩
    (by decide)).1⟩

/-- The opening fence does not overlap itself: it cannot start in a text that
does not hold it and end in a copy of itself that follows. -/
theorem openFence_no_overlap (sep p1 p2 R : Str) (hsep : ¬ openFence <:+: sep)
    (e : sep = p1 ++ p2) (hne : p2 ≠ []) : ¬ openFence <+: p2 ++ (openFence ++ R) := by
  intro hpre
  by_cases hlen : openFence.length ≤ p2.length
  · have h1 : openFence <+: p2 :=
      List.prefix_of_prefix_length_le hpre (List.prefix_append _ _) hlen
    exact hsep (e ▸ (h1.isInfix.trans (List.infix_append' p1 p2 []) |> fun h => by simpa using h))
  · have hl : openFence.length = 11 := rfl
    have h1 : openFence = List.take 11 (p2 ++ (openFence ++ R)) := by
      have := List.prefix_iff_eq_take.mp hpre
      rwa [hl] at this
    have h2 := congrArg (List.drop p2.length) h1
    rw [List.drop_take, List.drop_left,
      List.take_append_of_le_length (by rw [hl]; omega)] at h2
    have hk : 0 < p2.length := List.length_pos.mpr hne
    have hk2 : p2.length < 11 := by omega
    generalize p2.length = k at h2 hk hk2
    have : ∀ k, k < 11 → 0 < k → List.drop k openFence ≠ List.take (11 - k) openFence := by
      decide
    exact this k hk2 hk h2

/-- The function `exec` on a text without opening fence followed by a well-formed block. -/
theorem exec_sep_block (sep path body tail : Str) (hsep : ¬ openFence <:+: sep)
    (hp : ∀ c ∈ path, isLineTerminator c = false) (hns : ∃ c ∈ path, isSpace c = false)
    (hb : ¬ fence <:+: body) :
    exec (sep ++ block path body ++ tail) = some ⟨trim path, body ++ "\n".toList, tail⟩ := by
  rw [List.append_assoc]
  refine exec_skip (codeBlockRegex_block path body tail hp hns hb) ?_
  intro p1 p2 e hne
  unfold codeBlockRegex
  apply lit_eq_none_of_not_prefix
  have := openFence_no_overlap sep p1 p2
    ("\n// FILE: ".toList ++ path ++ "\n".toList ++ body ++ "\n".toList ++ fence ++ tail) hsep e hne
  simpa [block, List.append_assoc] using this

/-- The function `exec` on a text without opening fence finds nothing. -/
theorem exec_no_fence (sep : Str) (hsep : ¬ openFence <:+: sep) : exec sep = none := by
  apply exec_eq_none
  intro p1 p2 e
  unfold codeBlockRegex
  apply lit_eq_none_of_not_prefix
  rintro ⟨t, ht⟩
  exact hsep ⟨p1, t, by rw [e, ← ht]; simp⟩

theorem trim_append_newline (b : Str) : trim (b ++ "\n".toList) = trim b := by
  have hn : isSpace '\n' = true := by decide
  show ((b ++ ['\n']).dropWhile isSpace).rdropWhile isSpace = (b.dropWhile isSpace).rdropWhile isSpace
  rw [List.dropWhile_append]
  by_cases h : (b.dropWhile isSpace).isEmpty = true
  · have h' : b.dropWhile isSpace = [] := List.isEmpty_iff.mp h
    simp [h', hn]
  · simp only [h]
    exact List.rdropWhile_concat_pos _ _ _ hn

theorem trim_trim (s : Str) : trim (trim s) = trim s := by
  by_cases h : ∃ c ∈ s, isSpace c = false
  · obtain ⟨lead, trail, x, init, y, -, -, -, hhead, hx, hlast, hy⟩ := trim_decomp s h
    generalize trim s = T at *
    have h1 : T.dropWhile isSpace = T := by
      cases T with
      | nil => rfl
      | cons t ts =>
        simp only [List.head?_cons, Option.some.injEq] at hhead
        subst hhead
        simp [List.dropWhile, hx]
    show (T.dropWhile isSpace).rdropWhile isSpace = T
    rw [h1, hlast]
    exact List.rdropWhile_concat_neg _ _ _ (by simp [hy])
  · have hall : ∀ c ∈ s, isSpace c = true := by
      intro c hc
      by_contra hcs
      exact h ⟨c, hc, by simpa using hcs⟩
    have h0 : trim s = [] := by
      show (s.dropWhile isSpace).rdropWhile isSpace = []
      rw [(List.dropWhile_eq_nil_iff).mpr hall]
      rfl
    rw [h0]
    rfl

/-- The matches of a document of well-formed blocks: one per block, in order. -/
theorem matchesFuel_document (n : Nat) (lead : Str) (items : List (Str × Str × Str))
    (hn : items.length ≤ n) (hlead : ¬ openFence <:+: lead)
    (hitems : ∀ it ∈ items, (∀ c ∈ it.1, isLineTerminator c = false) ∧
      (∃ c ∈ it.1, isSpace c = false) ∧ ¬ fence <:+: it.2.1 ∧ ¬ openFence <:+: it.2.2) :
    (matchesFuel n (document lead items)).map (fun m => (trim m.path, trim m.body))
      = items.map (fun it => (trim it.1, trim it.2.1)) := by
  induction items generalizing n lead with
  | nil =>
    cases n with
    | zero => rfl
    | succ k => simp [matchesFuel, document, exec_no_fence lead hlead]
  | cons it rest ih =>
    obtain ⟨path, body, sep⟩ := it
    obtain ⟨hp, hns, hb, hs⟩ := hitems (path, body, sep) (by simp)
    cases n with
    | zero => simp at hn
    | succ k =>
      have he := exec_sep_block lead path body (document sep rest) hlead hp hns hb
      simp only [document, matchesFuel, he, List.map_cons, trim_append_newline, trim_trim]
      rw [ih k sep (by simpa using hn) hs (fun it hit => hitems it (by simp [hit]))]

theorem length_le_document (lead : Str) (items : List (Str × Str × Str)) :
    items.length ≤ (document lead items).length := by
  induction items generalizing lead with
  | nil => simp
  | cons it rest ih =>
    obtain ⟨path, body, sep⟩ := it
    have := ih sep
    simp only [document, block, List.length_append, List.length_cons, openFence]
    simp
    omega

/-- The loop is the loop body folded over the matches. -/
theorem loop_eq_foldl {σ : Type} (ops : FsOps σ) (cwd : Str) (n : Nat) (s : Str) (st : RunState σ) :
    loop ops cwd n s st = (matchesFuel n s).foldl (processMatch ops cwd) st := by
  induction n generalizing s st with
  | zero => rfl
  | succ k ih =>
    unfold loop matchesFuel
    cases exec s with
    | none => rfl
    | some m => simp [ih]

/-- One turn of the loop body on a match with a marker path: either the `catch`
branch (an error message, the counter kept) or a file written (the counter
incremented); the output is only extended. -/
theorem processMatch_cases {σ : Type} (ops : FsOps σ) (cwd : Str) (st : RunState σ) (m : Match)
    (hm : trim m.path ≠ []) :
    (∃ extra, (processMatch ops cwd st m).log = st.log ++ extra ++ [Msg.errorProcessing (trim m.path)] ∧
        (∀ x ∈ extra, x.isWrote = false ∧ x.isError = false ∧ x.isSummary = false) ∧
        (processMatch ops cwd st m).filesCreated = st.filesCreated) ∨
    (∃ extra, (processMatch ops cwd st m).log =
          st.log ++ extra ++ [Msg.wroteFile (pathResolve cwd (trim m.path))] ∧
        (∀ x ∈ extra, x.isWrote = false ∧ x.isError = false ∧ x.isSummary = false) ∧
        (processMatch ops cwd st m).filesCreated = st.filesCreated + 1) := by
  unfold processMatch
  simp only [hm, if_false]
  by_cases hex : ops.existsSync st.fs (dirname (pathResolve cwd (trim m.path))) = true
  · simp only [hex, if_true, writeStep]
    rcases hw : ops.writeFileSync st.fs (pathResolve cwd (trim m.path)) (trim m.body) with ⟨fs2, ok⟩
    cases ok
    · exact Or.inl ⟨[], by simp, by simp, rfl⟩
    · exact Or.inr ⟨[], by simp, by simp, rfl⟩
  · simp only [hex]
    rcases hmk : ops.mkdirSync st.fs (dirname (pathResolve cwd (trim m.path))) with ⟨fs1, ok1⟩
    cases ok1
    · exact Or.inl ⟨[], by simp, by simp, rfl⟩
    · simp only [writeStep]
      rcases hw : ops.writeFileSync fs1 (pathResolve cwd (trim m.path)) (trim m.body) with ⟨fs2, ok⟩
      cases ok
      · exact Or.inl ⟨[Msg.createdDirectory (dirname (pathResolve cwd (trim m.path)))], by simp,
          by simp [Msg.isWrote, Msg.isError, Msg.isSummary], rfl⟩
      · exact Or.inr ⟨[Msg.createdDirectory (dirname (pathResolve cwd (trim m.path)))], by simp,
          by simp [Msg.isWrote, Msg.isError, Msg.isSummary], rfl⟩

/-- The loop body only adds to the output. -/
theorem processMatch_log_extends {σ : Type} (ops : FsOps σ) (cwd : Str) (st : RunState σ)
    (m : Match) : st.log <+: (processMatch ops cwd st m).log := by
  by_cases hm : trim m.path = []
  · simp [processMatch, hm]
  · rcases processMatch_cases ops cwd st m hm with ⟨extra, h, -⟩ | ⟨extra, h, -⟩
    · rw [h, List.append_assoc]; exact List.prefix_append _ _
    · rw [h, List.append_assoc]; exact List.prefix_append _ _

theorem foldl_log_extends {σ : Type} (ops : FsOps σ) (cwd : Str) (ms : List Match)
    (st : RunState σ) : st.log <+: (ms.foldl (processMatch ops cwd) st).log := by
  induction ms generalizing st with
  | nil => exact List.prefix_refl _
  | cons m ms ih =>
    exact (processMatch_log_extends ops cwd st m).trans (ih _)

/-- When no turn of the loop ends in the `catch` branch, every match with a marker
path is a file written and counted. -/
theorem foldl_count_of_no_error {σ : Type} (ops : FsOps σ) (cwd : Str) (ms : List Match)
    (st : RunState σ) (hms : ∀ m ∈ ms, trim m.path ≠ [])
    (hok : ∀ x ∈ (ms.foldl (processMatch ops cwd) st).log, x.isError = false) :
    (ms.foldl (processMatch ops cwd) st).filesCreated = st.filesCreated + ms.length ∧
    (ms.foldl (processMatch ops cwd) st).log.countP Msg.isWrote
      = st.log.countP Msg.isWrote + ms.length := by
  induction ms generalizing st with
  | nil => simp
  | cons m ms ih =>
    simp only [List.foldl_cons] at hok ⊢
    obtain ⟨h1, h2⟩ := ih (processMatch ops cwd st m) (fun m hm => hms m (by simp [hm])) hok
    have hpre := foldl_log_extends ops cwd ms (processMatch ops cwd st m)
    rcases processMatch_cases ops cwd st m (hms m (by simp)) with ⟨extra, hl, hex, hc⟩ | ⟨extra, hl, hex, hc⟩
    · have := hok (Msg.errorProcessing (trim m.path)) (hpre.subset (by rw [hl]; simp))
      simp [Msg.isError] at this
    · have hcount : (processMatch ops cwd st m).log.countP Msg.isWrote
          = st.log.countP Msg.isWrote + 1 := by
        rw [hl]
        have : extra.countP Msg.isWrote = 0 := by
          rw [List.countP_eq_zero]
          intro x hx
          simp [(hex x hx).1]
        simp [List.countP_append, this, Msg.isWrote]
      rw [h1, h2, hc, hcount]
      simp only [List.length_cons]
      omega

/-- C1: a document made of `N` well-formed blocks (marker path without line
terminator and with a character that is not white space, body without triple
backtick), with texts that hold no opening fence before, between and after them, is
turned by the loop into exactly `N` blocks, in order, the i-th being
`(trim path_i, trim body_i)`; and on any file system, when no turn of the loop ends in
the `catch` branch, `filesCreated` is `N`, `N` files are reported written, and the
last message is the summary for `N`. -/
theorem C1_wellformed_document (lead : Str) (items : List (Str × Str × Str))
    (hlead : ¬ openFence <:+: lead)
    (hitems : ∀ it ∈ items, (∀ c ∈ it.1, isLineTerminator c = false) ∧
      (∃ c ∈ it.1, isSpace c = false) ∧ ¬ fence <:+: it.2.1 ∧ ¬ openFence <:+: it.2.2) :
    (allMatches (document lead items)).map (fun m => (trim m.path, trim m.body))
      = items.map (fun it => (trim it.1, trim it.2.1)) ∧
    ∀ (σ : Type) (ops : FsOps σ) (cwd : Str) (fs : σ),
      (∀ x ∈ (processText ops cwd (document lead items) ⟨fs, 0, []⟩).log, x.isError = false) →
      (processText ops cwd (document lead items) ⟨fs, 0, []⟩).filesCreated = items.length ∧
      (processText ops cwd (document lead items) ⟨fs, 0, []⟩).log.countP Msg.isWrote
        = items.length ∧
      (processText ops cwd (document lead items) ⟨fs, 0, []⟩).log.getLast?
        = some (summary items.length) := by
  have hmatches := matchesFuel_document (document lead items).length lead items
    (length_le_document lead items) hlead hitems
  refine ⟨hmatches, ?_⟩
  intro σ ops cwd fs hok
  have hms : ∀ m ∈ allMatches (document lead items), trim m.path ≠ [] := by
    intro m hm
    have h1 : (trim m.path, trim m.body) ∈ items.map (fun it => (trim it.1, trim it.2.1)) := by
      rw [← hmatches]
      exact List.mem_map.mpr ⟨m, hm, rfl⟩
    obtain ⟨it, hit, e⟩ := List.mem_map.mp h1
    obtain ⟨-, hns, -, -⟩ := hitems it hit
    obtain ⟨_, _, x, _, _, -, -, -, hhead, -, -, -⟩ := trim_decomp it.1 hns
    have e1 : trim it.1 = trim m.path := congrArg Prod.fst e
    rw [← e1]
    intro h0
    rw [h0] at hhead
    cases hhead
  simp only [processText, loop_eq_foldl] at hok ⊢
  have hok' : ∀ x ∈ ((allMatches (document lead items)).foldl (processMatch ops cwd)
      ⟨fs, 0, []⟩).log, x.isError = false := by
    intro x hx
    exact hok x (List.mem_append_left _ hx)
  obtain ⟨h1, h2⟩ := foldl_count_of_no_error ops cwd _ ⟨fs, 0, []⟩ hms hok'
  have hlen : (allMatches (document lead items)).length = items.length := by
    have := congrArg List.length hmatches
    simpa using this
  simp only [hlen, List.countP_nil, Nat.zero_add] at h1 h2
  have h1' : (List.foldl (processMatch ops cwd) ⟨fs, 0, []⟩
      (matchesFuel (document lead items).length (document lead items))).filesCreated
      = items.length := h1
  have h2' : (List.foldl (processMatch ops cwd) ⟨fs, 0, []⟩
      (matchesFuel (document lead items).length (document lead items))).log.countP Msg.isWrote
      = items.length := h2
  refine ⟨h1', ?_, ?_⟩
  · rw [List.countP_append, h2']
    simp only [summary]
    split <;> simp [Msg.isWrote]
  · rw [h1']
    simp

/-- C1 on a document of two blocks. -/
theorem C1_wellformed_document_witness :
    (¬ openFence <:+: "# Files\n".toList ∧
      ∀ it ∈ [("lib/foo.txt".toList, "hello".toList, "\ntext ``` text\n".toList),
          (" a.txt ".toList, "x\ny".toList, "".toList)],
        (∀ c ∈ it.1, isLineTerminator c = false) ∧
        (∃ c ∈ it.1, isSpace c = false) ∧ ¬ fence <:+: it.2.1 ∧ ¬ openFence <:+: it.2.2) ∧
    ((allMatches (document "# Files\n".toList
        [("lib/foo.txt".toList, "hello".toList, "\ntext ``` text\n".toList),
          (" a.txt ".toList, "x\ny".toList, "".toList)])).map (fun m => (trim m.path, trim m.body))
      = [("lib/foo.txt".toList, "hello".toList, "\ntext ``` text\n".toList),
          (" a.txt ".toList, "x\ny".toList, "".toList)].map (fun it => (trim it.1, trim it.2.1)) ∧
    ∀ (σ : Type) (ops : FsOps σ) (cwd : Str) (fs : σ),
      (∀ x ∈ (processText ops cwd (document "# Files\n".toList
        [("lib/foo.txt".toList, "hello".toList, "\ntext ``` text\n".toList),
          (" a.txt ".toList, "x\ny".toList, "".toList)]) ⟨fs, 0, []⟩).log, x.isError = false) →
      (processText ops cwd (document "# Files\n".toList
        [("lib/foo.txt".toList, "hello".toList, "\ntext ``` text\n".toList),
          (" a.txt ".toList, "x\ny".toList, "".toList)]) ⟨fs, 0, []⟩).filesCreated
        = [("lib/foo.txt".toList, "hello".toList, "\ntext ``` text\n".toList),
          (" a.txt ".toList, "x\ny".toList, "".toList)].length ∧
      (processText ops cwd (document "# Files\n".toList
        [("lib/foo.txt".toList, "hello".toList, "\ntext ``` text\n".toList),
          (" a.txt ".toList, "x\ny".toList, "".toList)]) ⟨fs, 0, []⟩).log.countP Msg.isWrote
        = [("lib/foo.txt".toList, "hello".toList, "\ntext ``` text\n".toList),
          (" a.txt ".toList, "x\ny".toList, "".toList)].length ∧
      (processText ops cwd (document "# Files\n".toList
        [("lib/foo.txt".toList, "hello".toList, "\ntext ``` text\n".toList),
          (" a.txt ".toList, "x\ny".toList, "".toList)]) ⟨fs, 0, []⟩).log.getLast?
        = some (summary [("lib/foo.txt".toList, "hello".toList, "\ntext ``` text\n".toList),
          (" a.txt ".toList, "x\ny".toList, "".toList)].length)) :=
  ⟨⟨by decide, by decide⟩, C1_wellformed_document _ _ (by decide) (by decide)⟩

/-! ## The loop body and the `try` block -/

/-- The loop body on a match with a marker path runs the `try` block: the file
system is the one the block leaves, the counter is incremented exactly when the
block completes, and the last message printed is the success message or the one
of the `catch` branch. -/
theorem processMatch_attempt {σ : Type} (ops : FsOps σ) (cwd : Str) (st : RunState σ) (m : Match)
    (hm : trim m.path ≠ []) :
    (processMatch ops cwd st m).fs = (attempt ops cwd st.fs m).1 ∧
    (processMatch ops cwd st m).filesCreated
      = st.filesCreated + (if (attempt ops cwd st.fs m).2 = true then 1 else 0) ∧
    (processMatch ops cwd st m).log.getLast?
      = some (if (attempt ops cwd st.fs m).2 = true
          then Msg.wroteFile (pathResolve cwd (trim m.path))
          else Msg.errorProcessing (trim m.path)) := by
  unfold processMatch attempt dirReady
  simp only [hm, if_false]
  by_cases hex : ops.existsSync st.fs (dirname (pathResolve cwd (trim m.path))) = true
  · simp only [hex, if_true, writeStep]
    rcases hw : ops.writeFileSync st.fs (pathResolve cwd (trim m.path)) (trim m.body) with ⟨fs2, ok⟩
    cases ok <;> simp
  · simp only [hex]
    rcases hmk : ops.mkdirSync st.fs (dirname (pathResolve cwd (trim m.path))) with ⟨fs1, ok1⟩
    cases ok1
    · simp
    · simp only [writeStep]
      rcases hw : ops.writeFileSync fs1 (pathResolve cwd (trim m.path)) (trim m.body) with ⟨fs2, ok⟩
      cases ok <;> simp [hw]

/-- The loop body only extends the output, by messages that are not summaries, and
counts the files it reports written. -/
theorem processMatch_step {σ : Type} (ops : FsOps σ) (cwd : Str) (st : RunState σ) (m : Match) :
    ∃ extra, (processMatch ops cwd st m).log = st.log ++ extra ∧
      (∀ x ∈ extra, x.isSummary = false) ∧
      (processMatch ops cwd st m).filesCreated = st.filesCreated + extra.countP Msg.isWrote := by
  by_cases hm : trim m.path = []
  · refine ⟨[Msg.skipWarning], ?_, ?_, ?_⟩ <;> simp [processMatch, hm, Msg.isSummary, Msg.isWrote]
  · rcases processMatch_cases ops cwd st m hm with ⟨extra, hl, hex, hc⟩ | ⟨extra, hl, hex, hc⟩
    · refine ⟨extra ++ [Msg.errorProcessing (trim m.path)], by rw [hl, List.append_assoc], ?_, ?_⟩
      · intro x hx
        rcases List.mem_append.mp hx with hx | hx
        · exact (hex x hx).2.2
        · simp only [List.mem_singleton] at hx
          subst hx
          rfl
      · have : extra.countP Msg.isWrote = 0 := by
          rw [List.countP_eq_zero]
          intro x hx
          simp [(hex x hx).1]
        rw [hc, List.countP_append, this]
        simp [Msg.isWrote]
    · refine ⟨extra ++ [Msg.wroteFile (pathResolve cwd (trim m.path))],
        by rw [hl, List.append_assoc], ?_, ?_⟩
      · intro x hx
        rcases List.mem_append.mp hx with hx | hx
        · exact (hex x hx).2.2
        · simp only [List.mem_singleton] at hx
          subst hx
          rfl
      · have : extra.countP Msg.isWrote = 0 := by
          rw [List.countP_eq_zero]
          intro x hx
          simp [(hex x hx).1]
        rw [hc, List.countP_append, this]
        simp [Msg.isWrote]

theorem processAll_step {σ : Type} (ops : FsOps σ) (cwd : Str) (ms : List Match)
    (st : RunState σ) :
    ∃ extra, (processAll ops cwd st ms).log = st.log ++ extra ∧
      (∀ x ∈ extra, x.isSummary = false) ∧
      (processAll ops cwd st ms).filesCreated = st.filesCreated + extra.countP Msg.isWrote := by
  induction ms generalizing st with
  | nil => exact ⟨[], by simp [processAll], by simp, by simp [processAll]⟩
  | cons m ms ih =>
    obtain ⟨e1, hl1, hs1, hc1⟩ := processMatch_step ops cwd st m
    obtain ⟨e2, hl2, hs2, hc2⟩ := ih (processMatch ops cwd st m)
    refine ⟨e1 ++ e2, ?_, ?_, ?_⟩
    · show (processAll ops cwd (processMatch ops cwd st m) ms).log = _
      rw [hl2, hl1, List.append_assoc]
    · intro x hx
      rcases List.mem_append.mp hx with hx | hx
      · exact hs1 x hx
      · exact hs2 x hx
    · show (processAll ops cwd (processMatch ops cwd st m) ms).filesCreated = _
      rw [hc2, hc1, List.countP_append]
      omega

theorem processAll_append {σ : Type} (ops : FsOps σ) (cwd : Str) (st : RunState σ)
    (xs ys : List Match) :
    processAll ops cwd st (xs ++ ys) = processAll ops cwd (processAll ops cwd st xs) ys := by
  simp [processAll, List.foldl_append]

theorem loop_eq_processAll {σ : Type} (ops : FsOps σ) (cwd : Str) (text : Str) (st : RunState σ) :
    loop ops cwd text.length text st = processAll ops cwd st (allMatches text) := by
  rw [loop_eq_foldl]
  rfl

/-- The loop never stops for lack of fuel: any fuel from the length of the text
on gives the same final state. -/
theorem loop_stable {σ : Type} (ops : FsOps σ) (cwd : Str) (text : Str) (st : RunState σ)
    (n : Nat) (hn : text.length ≤ n) :
    loop ops cwd n text st = loop ops cwd text.length text st := by
  rw [loop_eq_foldl, loop_eq_foldl, matchesFuel_stable n text hn]
  rfl

/-! ## C2: a block with an empty marker path -/

/-- C2 (evaluation of the code): on a block whose marker line holds no path, the
`\s*` after `FILE:` runs over the end of the line, group 1 is the first line of
the body, and the loop writes a file of that name with the rest of the body (here
nothing) as content, without any warning.  When that block is followed by a text
line and a valid block, no match is found past the first one. -/
theorem C2_empty_marker_is_not_skipped :
    (allMatches "```markdown\n// FILE: \nbody\n```".toList).map
        (fun m => (trim m.path, trim m.body)) = [("body".toList, [])] ∧
    (processText posix "/w".toList "```markdown\n// FILE: \nbody\n```".toList
        ⟨onlyDir ["w".toList], 0, []⟩).log
      = [Msg.wroteFile ["w".toList, "body".toList], Msg.successSummary 1] ∧
    (processText posix "/w".toList "```markdown\n// FILE: \nbody\n```".toList
        ⟨onlyDir ["w".toList], 0, []⟩).fs ["w".toList, "body".toList] = some (Node.file []) ∧
    (allMatches "```markdown\n// FILE: \n```\n\n```markdown\n// FILE: a.txt\nhello\n```".toList).map
        (fun m => (trim m.path, trim m.body)) = [("```".toList, [])] := by
  decide

/-! ## C7, C9, C10: error isolation, the summary, the exit code -/

theorem processAll_cons {σ : Type} (ops : FsOps σ) (cwd : Str) (st : RunState σ) (m : Match)
    (ms : List Match) :
    processAll ops cwd st (m :: ms) = processAll ops cwd (processMatch ops cwd st m) ms := rfl

theorem processAll_filesCreated_le {σ : Type} (ops : FsOps σ) (cwd : Str) (st : RunState σ)
    (ms : List Match) : st.filesCreated ≤ (processAll ops cwd st ms).filesCreated := by
  obtain ⟨extra, -, -, hc⟩ := processAll_step ops cwd ms st
  omega

theorem processAll_log_subset {σ : Type} (ops : FsOps σ) (cwd : Str) (st : RunState σ)
    (ms : List Match) (x : Msg) (hx : x ∈ st.log) : x ∈ (processAll ops cwd st ms).log := by
  obtain ⟨extra, hl, -, -⟩ := processAll_step ops cwd ms st
  rw [hl]
  exact List.mem_append_left _ hx

/-- The counter after the loop is the counter before plus the number of matches
whose `try` block completed. -/
theorem processAll_filesCreated {σ : Type} (ops : FsOps σ) (cwd : Str) (ms : List Match)
    (st : RunState σ) :
    (processAll ops cwd st ms).filesCreated = st.filesCreated + countWritten ops cwd st.fs ms := by
  induction ms generalizing st with
  | nil => rfl
  | cons m ms ih =>
    rw [processAll_cons, ih]
    by_cases hm : trim m.path = []
    · simp [countWritten, hm, processMatch]
    · obtain ⟨h1, h2, -⟩ := processMatch_attempt ops cwd st m hm
      rw [h1, h2]
      simp only [countWritten, hm, if_false]
      omega

/-- C7: when the directory creation or the write of a matched block fails, the
counter is not incremented for it, the error is printed with its relative path,
and the loop goes on with the later matches: for each of them with a marker path
the `try` block is run on the file system left so far, and when it completes the
file is written, the counter is incremented, and both the increment and the
success message are part of the final result. -/
theorem C7_failure_is_isolated {σ : Type} (ops : FsOps σ) (cwd text : Str) (st0 : RunState σ)
    (pre : List Match) (m : Match) (post : List Match)
    (hms : allMatches text = pre ++ m :: post) (hm : trim m.path ≠ [])
    (hfail : (attempt ops cwd (processAll ops cwd st0 pre).fs m).2 = false) :
    (processMatch ops cwd (processAll ops cwd st0 pre) m).filesCreated
      = (processAll ops cwd st0 pre).filesCreated ∧
    (processMatch ops cwd (processAll ops cwd st0 pre) m).log.getLast?
      = some (Msg.errorProcessing (trim m.path)) ∧
    loop ops cwd text.length text st0
      = processAll ops cwd (processMatch ops cwd (processAll ops cwd st0 pre) m) post ∧
    ∀ post1 m2 post2, post = post1 ++ m2 :: post2 → trim m2.path ≠ [] →
      (processMatch ops cwd
          (processAll ops cwd (processMatch ops cwd (processAll ops cwd st0 pre) m) post1) m2).fs
        = (attempt ops cwd
          (processAll ops cwd (processMatch ops cwd (processAll ops cwd st0 pre) m) post1).fs m2).1 ∧
      ((attempt ops cwd
          (processAll ops cwd (processMatch ops cwd (processAll ops cwd st0 pre) m) post1).fs m2).2
          = true →
        (processMatch ops cwd
            (processAll ops cwd (processMatch ops cwd (processAll ops cwd st0 pre) m) post1)
            m2).filesCreated
          = (processAll ops cwd (processMatch ops cwd (processAll ops cwd st0 pre) m)
              post1).filesCreated + 1 ∧
        (processAll ops cwd (processMatch ops cwd (processAll ops cwd st0 pre) m)
              post1).filesCreated + 1 ≤ (loop ops cwd text.length text st0).filesCreated ∧
        Msg.wroteFile (pathResolve cwd (trim m2.path))
          ∈ (loop ops cwd text.length text st0).log) := by
  obtain ⟨h1, h2, h3⟩ := processMatch_attempt ops cwd (processAll ops cwd st0 pre) m hm
  have hloop : loop ops cwd text.length text st0
      = processAll ops cwd (processMatch ops cwd (processAll ops cwd st0 pre) m) post := by
    rw [loop_eq_processAll, hms, processAll_append, processAll_cons]
  refine ⟨by simpa [hfail] using h2, by simpa [hfail] using h3, hloop, ?_⟩
  intro post1 m2 post2 hpost hm2
  generalize processMatch ops cwd (processAll ops cwd st0 pre) m = s2 at hloop ⊢
  obtain ⟨g1, g2, g3⟩ := processMatch_attempt ops cwd (processAll ops cwd s2 post1) m2 hm2
  refine ⟨g1, ?_⟩
  intro hok
  have hfin : loop ops cwd text.length text st0
      = processAll ops cwd (processMatch ops cwd (processAll ops cwd s2 post1) m2) post2 := by
    rw [hloop, hpost, processAll_append, processAll_cons]
  have g2' : (processMatch ops cwd (processAll ops cwd s2 post1) m2).filesCreated
      = (processAll ops cwd s2 post1).filesCreated + 1 := by simpa [hok] using g2
  refine ⟨g2', ?_, ?_⟩
  · rw [hfin, ← g2']
    exact processAll_filesCreated_le ops cwd _ post2
  · rw [hfin]
    apply processAll_log_subset
    have := List.mem_of_mem_getLast? g3
    simpa [hok] using this

/-- C7 on a text whose first block cannot be written and whose second can. -/
theorem C7_failure_is_isolated_witness :
    (allMatches demoFailThenWrite
        = [] ++ ⟨".".toList, "x\n".toList,
            "\n```markdown\n// FILE: a.txt\nhello\n```".toList⟩
          :: [⟨"a.txt".toList, "hello\n".toList, []⟩] ∧
      trim ".".toList ≠ [] ∧
      (attempt posix "/w".toList (processAll posix "/w".toList
        ⟨onlyDir ["w".toList], 0, []⟩ []).fs ⟨".".toList, "x\n".toList,
            "\n```markdown\n// FILE: a.txt\nhello\n```".toList⟩).2 = false) ∧
    (loop posix "/w".toList demoFailThenWrite.length demoFailThenWrite
        ⟨onlyDir ["w".toList], 0, []⟩).filesCreated = 1 ∧
    (loop posix "/w".toList demoFailThenWrite.length demoFailThenWrite
        ⟨onlyDir ["w".toList], 0, []⟩).log
      = [Msg.errorProcessing ".".toList, Msg.wroteFile ["w".toList, "a.txt".toList]] ∧
    Msg.wroteFile (pathResolve "/w".toList (trim "a.txt".toList))
      ∈ (loop posix "/w".toList demoFailThenWrite.length demoFailThenWrite
        ⟨onlyDir ["w".toList], 0, []⟩).log :=
  ⟨⟨by decide, by decide, by decide⟩, by decide, by decide,
    ((C7_failure_is_isolated posix "/w".toList demoFailThenWrite ⟨onlyDir ["w".toList], 0, []⟩ []
      ⟨".".toList, "x\n".toList, "\n```markdown\n// FILE: a.txt\nhello\n```".toList⟩
      [⟨"a.txt".toList, "hello\n".toList, []⟩] (by decide) (by decide) (by decide)).2.2.2
      [] ⟨"a.txt".toList, "hello\n".toList, []⟩ [] rfl (by decide)).2 (by decide) |>.2.2⟩

/-- When `process.cwd()` returns, no exception leaves the loop, and the loop is
`loop`. -/
theorem runLoop_some {σ : Type} (ops : FsOps σ) (c : Str) (n : Nat) (s : Str)
    (st : RunState σ) : runLoop ops (some c) n s st = (loop ops c n s st, false) := by
  induction n generalizing s st with
  | zero => rfl
  | succ k ih =>
    unfold runLoop loop
    cases exec s with
    | none => rfl
    | some m => simp [runMatch, ih]

/-- When the working directory is gone, the loop only prints skip warnings, until
the first match with a marker path, where `process.cwd()` throws. -/
theorem runLoop_none {σ : Type} (ops : FsOps σ) (n : Nat) (s : Str) (st : RunState σ) :
    (runLoop ops none n s st).1.fs = st.fs ∧
    (runLoop ops none n s st).1.filesCreated = st.filesCreated ∧
    (∃ extra, (runLoop ops none n s st).1.log = st.log ++ extra ∧
      ∀ x ∈ extra, x = Msg.skipWarning) ∧
    ((runLoop ops none n s st).2 = true ↔ ∃ m ∈ matchesFuel n s, trim m.path ≠ []) := by
  induction n generalizing s st with
  | zero => exact ⟨rfl, rfl, ⟨[], by simp [runLoop], by simp⟩, by simp [runLoop, matchesFuel]⟩
  | succ k ih =>
    unfold runLoop matchesFuel
    cases exec s with
    | none => exact ⟨by trivial, by trivial, ⟨[], by simp, by simp⟩, by simp⟩
    | some m =>
      by_cases hm : trim m.path = []
      · obtain ⟨h1, h2, ⟨extra, h3, h4⟩, h5⟩ :=
          ih m.rest ⟨st.fs, st.filesCreated, st.log ++ [Msg.skipWarning]⟩
        simp only [runMatch, hm, if_true]
        refine ⟨h1, h2, ⟨Msg.skipWarning :: extra, by rw [h3]; simp, ?_⟩, ?_⟩
        · intro x hx
          rcases List.mem_cons.mp hx with rfl | hx
          · rfl
          · exact h4 x hx
        · rw [h5]
          simp [hm]
      · simp only [runMatch, hm, if_false]
        exact ⟨by trivial, by trivial, ⟨[], by simp, by simp⟩, by simpa using Or.inl hm⟩

/-- C9: a run that passes the input validation, reads the file and processes all
blocks (`process.cwd()` returns, or no block has a marker path, so that it is not
called) prints, after the messages of the loop (none of which is a summary),
exactly one summary as its last message: the success message with `filesCreated`
when `filesCreated > 0`, the no-files-found message otherwise; `filesCreated` is the
number of matches whose file was written, and also the number of files reported
written; the exit code is 0; and a text without any match gives the no-files-found
message and leaves the file system as it was. -/
theorem C9_one_final_summary {σ : Type} (ops : FsOps σ) (cwd : Option Str) (arg : Str) (fs : σ)
    (text : Str) (harg : arg ≠ []) (hex : ops.existsSyncArg fs cwd arg = true)
    (hread : ops.readFileSync fs cwd arg = some text)
    (hdone : cwd ≠ none ∨ ∀ m ∈ allMatches text, trim m.path = []) :
    (∃ body, (main ops cwd (some arg) fs).log
          = Msg.processing arg :: body ++ [summary (main ops cwd (some arg) fs).filesCreated] ∧
        (∀ x ∈ Msg.processing arg :: body, x.isSummary = false) ∧
        (main ops cwd (some arg) fs).filesCreated = body.countP Msg.isWrote) ∧
    summary (main ops cwd (some arg) fs).filesCreated
      = (if 0 < (main ops cwd (some arg) fs).filesCreated
          then Msg.successSummary (main ops cwd (some arg) fs).filesCreated
          else Msg.noFilesFound) ∧
    (∀ c, cwd = some c →
      (main ops cwd (some arg) fs).filesCreated = countWritten ops c fs (allMatches text)) ∧
    (cwd = none → (main ops cwd (some arg) fs).filesCreated = 0) ∧
    (main ops cwd (some arg) fs).exitCode = 0 ∧
    (allMatches text = [] →
      (main ops cwd (some arg) fs).log = [Msg.processing arg, Msg.noFilesFound] ∧
      (main ops cwd (some arg) fs).fs = fs) := by
  cases cwd with
  | some c =>
    have hmain : main ops (some c) (some arg) fs
        = ⟨(processText ops c text ⟨fs, 0, [Msg.processing arg]⟩).fs,
           (processText ops c text ⟨fs, 0, [Msg.processing arg]⟩).filesCreated,
           (processText ops c text ⟨fs, 0, [Msg.processing arg]⟩).log, 0⟩ := by
      simp [main, harg, hex, hread, runLoop_some, processText]
    rw [hmain]
    simp only [processText, loop_eq_processAll]
    obtain ⟨extra, hl, hs, hc⟩ := processAll_step ops c (allMatches text)
      ⟨fs, 0, [Msg.processing arg]⟩
    refine ⟨⟨extra, ?_, ?_, ?_⟩, ?_, ?_, ?_, trivial, ?_⟩
    · rw [hl]; simp
    · intro x hx
      rcases List.mem_cons.mp hx with rfl | hx
      · rfl
      · exact hs x hx
    · simpa using hc
    · simp [summary]
    · intro c' hc'
      cases hc'
      simpa using processAll_filesCreated ops c (allMatches text) ⟨fs, 0, [Msg.processing arg]⟩
    · intro h
      cases h
    · intro h0
      simp [h0, processAll, summary]
  | none =>
    have hall : ∀ m ∈ allMatches text, trim m.path = [] := by
      rcases hdone with h | h
      · exact absurd rfl h
      · exact h
    obtain ⟨h1, h2, ⟨extra, h3, h4⟩, h5⟩ :=
      runLoop_none ops text.length text ⟨fs, 0, [Msg.processing arg]⟩
    have hfalse : (runLoop ops none text.length text ⟨fs, 0, [Msg.processing arg]⟩).2 = false := by
      cases hb : (runLoop ops none text.length text ⟨fs, 0, [Msg.processing arg]⟩).2 with
      | false => rfl
      | true =>
        obtain ⟨m, hm, hne⟩ := h5.mp hb
        exact absurd (hall m hm) hne
    have hmain : main ops none (some arg) fs
        = ⟨fs, 0, Msg.processing arg :: extra ++ [summary 0], 0⟩ := by
      simp only [main, harg, if_false, hex, hread, Bool.not_true, Bool.false_eq_true]
      rcases hr : runLoop ops none text.length text ⟨fs, 0, [Msg.processing arg]⟩ with ⟨st, b⟩
      rw [hr] at h1 h2 h3 hfalse
      simp only at h1 h2 h3 hfalse
      subst hfalse
      simp [h1, h2, h3]
    rw [hmain]
    have hextra : ∀ x ∈ extra, x.isSummary = false ∧ x.isWrote = false := by
      intro x hx
      rw [h4 x hx]
      exact ⟨rfl, rfl⟩
    refine ⟨⟨extra, rfl, ?_, ?_⟩, by simp [summary], ?_, fun _ => rfl, rfl, ?_⟩
    · intro x hx
      rcases List.mem_cons.mp hx with rfl | hx
      · rfl
      · exact (hextra x hx).1
    · symm
      rw [List.countP_eq_zero]
      intro x hx
      simp [(hextra x hx).2]
    · intro c hc
      cases hc
    · intro h0
      have hextra0 : extra = [] := by
        have hl : (runLoop ops none text.length text ⟨fs, 0, [Msg.processing arg]⟩).1.log
            = [Msg.processing arg] := by
          have : matchesFuel text.length text = [] := h0
          cases hn : text.length with
          | zero => simp [runLoop]
          | succ k =>
            rw [hn] at this
            unfold matchesFuel at this
            unfold runLoop
            cases he : exec text with
            | none => rfl
            | some m => rw [he] at this; cases this
        rw [hl] at h3
        simpa using h3
      simp [hextra0, summary]

/-- C9 on the text of `demoFailThenWrite`, read from `/w/in.md`. -/
theorem C9_one_final_summary_witness :
    ("in.md".toList ≠ [] ∧
      posix.existsSyncArg (demoFs demoFailThenWrite) (some "/w".toList) "in.md".toList = true ∧
      posix.readFileSync (demoFs demoFailThenWrite) (some "/w".toList) "in.md".toList
        = some demoFailThenWrite ∧
      ((some "/w".toList : Option Str) ≠ none ∨
        ∀ m ∈ allMatches demoFailThenWrite, trim m.path = [])) ∧
    (main posix (some "/w".toList) (some "in.md".toList) (demoFs demoFailThenWrite)).log
      = [Msg.processing "in.md".toList, Msg.errorProcessing ".".toList,
          Msg.wroteFile ["w".toList, "a.txt".toList], Msg.successSummary 1] ∧
    (main posix (some "/w".toList) (some "in.md".toList) (demoFs demoFailThenWrite)).filesCreated
      = countWritten posix "/w".toList (demoFs demoFailThenWrite) (allMatches demoFailThenWrite) ∧
    (main posix (some "/w".toList) (some "in.md".toList) (demoFs demoFailThenWrite)).exitCode = 0 :=
  ⟨⟨by decide, by decide, by decide, Or.inl (by simp)⟩, by decide,
    (C9_one_final_summary posix (some "/w".toList) "in.md".toList (demoFs demoFailThenWrite)
      demoFailThenWrite (by decide) (by decide) (by decide) (Or.inl (by simp))).2.2.1
      "/w".toList rfl,
    by decide⟩

/-- C10 (as stated) fails: with the working directory gone, the argument
`/data/in.md` is given, exists and is read, and yet the run exits with code 1:
`process.cwd()` throws at the first block with a marker path, inside the outer
`try`, whose `catch` prints the error and calls `process.exit(1)`. -/
theorem C10_counterexample :
    posix.existsSyncArg (demoDataFs demoOneBlock) none "/data/in.md".toList = true ∧
    posix.readFileSync (demoDataFs demoOneBlock) none "/data/in.md".toList = some demoOneBlock ∧
    (main posix none (some "/data/in.md".toList) (demoDataFs demoOneBlock)).exitCode = 1 ∧
    (main posix none (some "/data/in.md".toList) (demoDataFs demoOneBlock)).exitCode ≠ 0 ∧
    (main posix none (some "/data/in.md".toList) (demoDataFs demoOneBlock)).log
      = [Msg.processing "/data/in.md".toList, Msg.errorReading] := by
  decide

/-- C10 (amended): the exit code is 1, with the usage message on standard error
and the file system untouched, when no argument is given (`process.argv[2]` is
`undefined` or, for the test `!markdownFilePath`, the empty string); it is 1, with
the not-found message on standard error and the file system untouched, when the
path given does not exist; it is 1 when the file cannot be read; it is 1, with the
error message of the outer `catch` last, no summary and the file system untouched,
when `process.cwd()` throws, which happens when the working directory is gone and
a block has a marker path; and it is 0 in every other case. -/
theorem C10_exit_codes {σ : Type} (ops : FsOps σ) (cwd : Option Str) (arg : Option Str)
    (fs : σ) :
    ((arg = none ∨ arg = some []) →
      (main ops cwd arg fs).exitCode = 1 ∧ (main ops cwd arg fs).log = [Msg.usage] ∧
      Msg.usage.toStderr = true ∧ (main ops cwd arg fs).fs = fs) ∧
    (∀ p, arg = some p → p ≠ [] → ops.existsSyncArg fs cwd p = false →
      (main ops cwd arg fs).exitCode = 1 ∧ (main ops cwd arg fs).log = [Msg.notFound p] ∧
      (Msg.notFound p).toStderr = true ∧ (main ops cwd arg fs).fs = fs) ∧
    (∀ p, arg = some p → p ≠ [] → ops.existsSyncArg fs cwd p = true →
      ops.readFileSync fs cwd p = none →
      (main ops cwd arg fs).exitCode = 1 ∧
      (main ops cwd arg fs).log = [Msg.processing p, Msg.errorReading] ∧
      (main ops cwd arg fs).fs = fs) ∧
    (∀ p text, arg = some p → p ≠ [] → ops.existsSyncArg fs cwd p = true →
      ops.readFileSync fs cwd p = some text →
      cwd = none → (∃ m ∈ allMatches text, trim m.path ≠ []) →
      (main ops cwd arg fs).exitCode = 1 ∧
      (main ops cwd arg fs).log.getLast? = some Msg.errorReading ∧
      Msg.errorReading.toStderr = true ∧
      (∀ x ∈ (main ops cwd arg fs).log, x.isSummary = false) ∧
      (main ops cwd arg fs).fs = fs) ∧
    (∀ p text, arg = some p → p ≠ [] → ops.existsSyncArg fs cwd p = true →
      ops.readFileSync fs cwd p = some text →
      (cwd ≠ none ∨ ∀ m ∈ allMatches text, trim m.path = []) →
      (main ops cwd arg fs).exitCode = 0) := by
  refine ⟨?_, ?_, ?_, ?_, ?_⟩
  · rintro (rfl | rfl) <;> simp [main, Msg.toStderr]
  · rintro p rfl hp hex
    simp [main, hp, hex, Msg.toStderr]
  · rintro p rfl hp hex hread
    simp [main, hp, hex, hread]
  · rintro p text rfl hp hex hread rfl hm
    obtain ⟨h1, h2, ⟨extra, h3, h4⟩, h5⟩ :=
      runLoop_none ops text.length text ⟨fs, 0, [Msg.processing p]⟩
    have htrue : (runLoop ops none text.length text ⟨fs, 0, [Msg.processing p]⟩).2 = true :=
      h5.mpr hm
    simp only [main, hp, if_false, hex, hread, Bool.not_true, Bool.false_eq_true]
    rcases hr : runLoop ops none text.length text ⟨fs, 0, [Msg.processing p]⟩ with ⟨st, b⟩
    rw [hr] at h1 h2 h3 htrue
    have hb : b = true := htrue
    have h1' : st.fs = fs := h1
    have h3' : st.log = [Msg.processing p] ++ extra := h3
    subst hb
    refine ⟨rfl, by simp, rfl, ?_, h1'⟩
    intro x hx
    have hx' : x ∈ ([Msg.processing p] ++ extra) ++ [Msg.errorReading] := by
      rw [← h3']; exact hx
    rcases List.mem_append.mp hx' with hx2 | hx2
    · rcases List.mem_append.mp hx2 with hx3 | hx3
      · rw [List.mem_singleton.mp hx3]; rfl
      · rw [h4 x hx3]; rfl
    · rw [List.mem_singleton.mp hx2]; rfl
  · rintro p text rfl hp hex hread hdone
    cases cwd with
    | some c => simp [main, hp, hex, hread, runLoop_some]
    | none =>
      have hall : ∀ m ∈ allMatches text, trim m.path = [] := by
        rcases hdone with h | h
        · exact absurd rfl h
        · exact h
      have h5 := (runLoop_none ops text.length text ⟨fs, 0, [Msg.processing p]⟩).2.2.2
      have hfalse : (runLoop ops none text.length text ⟨fs, 0, [Msg.processing p]⟩).2 = false := by
        cases hb : (runLoop ops none text.length text ⟨fs, 0, [Msg.processing p]⟩).2 with
        | false => rfl
        | true =>
          obtain ⟨m, hm, hne⟩ := h5.mp hb
          exact absurd (hall m hm) hne
      simp only [main, hp, if_false, hex, hread, Bool.not_true, Bool.false_eq_true]
      rcases hr : runLoop ops none text.length text ⟨fs, 0, [Msg.processing p]⟩ with ⟨st, b⟩
      rw [hr] at hfalse
      have hb : b = false := hfalse
      subst hb
      rfl

/-- C10 (amended) evaluated: no argument, a missing file, a file named with a
`/` after it, a path through a missing directory, a directory given as the file,
a file without any block, and a valid block with the working directory gone. -/
theorem C10_exit_codes_witness :
    (main posix (some "/w".toList) none (demoFs [])).exitCode = 1 ∧
    (main posix (some "/w".toList) (some "nothing.md".toList) (demoFs [])).exitCode = 1 ∧
    (main posix (some "/w".toList) (some "nothing.md".toList) (demoFs [])).log
      = [Msg.notFound "nothing.md".toList] ∧
    (main posix (some "/w".toList) (some "in.md/".toList) (demoFs [])).log
      = [Msg.notFound "in.md/".toList] ∧
    (main posix (some "/w".toList) (some "missing/../in.md".toList) (demoFs [])).log
      = [Msg.notFound "missing/../in.md".toList] ∧
    (main posix (some "/w".toList) (some "/w".toList) (demoFs [])).exitCode = 1 ∧
    (main posix (some "/w".toList) (some "in.md".toList) (demoFs [])).exitCode = 0 ∧
    (main posix (some "/w".toList) (some "in.md".toList) (demoFs "no block here".toList)).log
      = [Msg.processing "in.md".toList, Msg.noFilesFound] ∧
    (main posix none (some "/data/in.md".toList) (demoDataFs demoOneBlock)).exitCode = 1 :=
  ⟨((C10_exit_codes posix (some "/w".toList) none (demoFs [])).1 (Or.inl rfl)).1,
    by decide, by decide, by decide, by decide, by decide, by decide, by decide,
    ((C10_exit_codes posix none (some "/data/in.md".toList) (demoDataFs demoOneBlock)).2.2.2.1
      "/data/in.md".toList demoOneBlock rfl (by decide) (by decide) (by decide) rfl
      (by decide)).1⟩

/-! ## The POSIX file system -/

theorem prefix_dropLast_iff {q f : Path} (hf : f ≠ []) :
    q <+: f.dropLast ↔ q <+: f ∧ q ≠ f := by
  obtain ⟨init, a, rfl⟩ : ∃ init a, f = init ++ [a] :=
    ⟨f.dropLast, f.getLast hf, (List.dropLast_append_getLast hf).symm⟩
  rw [List.dropLast_concat, List.prefix_concat_iff]
  constructor
  · intro h
    refine ⟨Or.inr h, ?_⟩
    rintro rfl
    have := h.length_le
    simp at this
  · rintro ⟨h | h, hne⟩
    · exact absurd h hne
    · exact h

/-- In a tree every proper ancestor of a node is a directory. -/
theorem FS.WF.ancestors {fs : FS} (hwf : fs.WF) :
    ∀ (q : Path), fs q ≠ none → ∀ r, r <+: q → r ≠ q → fs r = some Node.dir := by
  intro q
  induction q using List.reverseRecOn with
  | nil =>
    intro _ r hr hne
    exact absurd (List.prefix_nil.mp hr) hne
  | append_singleton init a ih =>
    intro hq r hr hne
    have hpar : fs init = some Node.dir := by
      have := hwf.2 (init ++ [a]) hq
      simpa [dirname] using this
    rcases List.prefix_concat_iff.mp hr with h | h
    · exact absurd h hne
    · by_cases hri : r = init
      · rw [hri]; exact hpar
      · exact ih (by rw [hpar]; simp) r h hri

/-- Creating directories below a path that does not exist: every segment is
created and the call succeeds. -/
theorem mkdirWalk_fresh (segs : List Str) :
    ∀ (fs : FS) (done : Path) (seg : Str), (∀ q, done ++ [seg] <+: q → fs q = none) →
      mkdirWalk fs done (seg :: segs)
        = (fun q => if done ++ [seg] <+: q ∧ q <+: done ++ seg :: segs then some Node.dir
            else fs q, true) := by
  induction segs with
  | nil =>
    intro fs done seg h
    have h0 : fs (done ++ [seg]) = none := h _ (List.prefix_refl _)
    simp only [mkdirWalk, h0]
    congr 1
    funext q
    simp only [FS.set]
    by_cases hq : q = done ++ [seg]
    · subst hq; simp
    · have : ¬ (done ++ [seg] <+: q ∧ q <+: done ++ [seg]) := by
        rintro ⟨h1, h2⟩
        exact hq (h2.eq_of_length_le h1.length_le)
      simp [hq, this]
  | cons seg2 segs ih =>
    intro fs done seg h
    have h0 : fs (done ++ [seg]) = none := h _ (List.prefix_refl _)
    have hrec := ih (fs.set (done ++ [seg]) Node.dir) (done ++ [seg]) seg2 (by
      intro q hq
      have hne : q ≠ done ++ [seg] := by
        rintro rfl
        have := hq.length_le
        simp at this
      simp only [FS.set, hne, if_false]
      exact h q ((List.prefix_append _ _).trans hq))
    rw [mkdirWalk]
    simp only [h0]
    rw [hrec]
    congr 1
    funext q
    simp only [FS.set]
    have happ : done ++ seg :: seg2 :: segs = (done ++ [seg]) ++ seg2 :: segs := by simp
    have happ2 : done ++ [seg] ++ seg2 :: segs = (done ++ [seg] ++ [seg2]) ++ segs := by simp
    by_cases hq : q = done ++ [seg]
    · subst hq
      have h1 : ¬ (done ++ [seg] ++ [seg2] <+: done ++ [seg]) := by
        intro hp
        have := hp.length_le
        simp at this
      have h2 : done ++ [seg] <+: done ++ seg :: seg2 :: segs := by
        rw [happ]; exact List.prefix_append _ _
      simp [h1, h2]
    · by_cases hc : done ++ [seg] ++ [seg2] <+: q ∧ q <+: done ++ [seg] ++ seg2 :: segs
      · have hc' : done ++ [seg] <+: q ∧ q <+: done ++ seg :: seg2 :: segs :=
          ⟨(List.prefix_append _ _).trans hc.1, by rw [happ]; exact hc.2⟩
        rw [if_pos hc, if_pos hc']
      · have hc' : ¬ (done ++ [seg] <+: q ∧ q <+: done ++ seg :: seg2 :: segs) := by
          rintro ⟨h1, h2⟩
          apply hc
          rw [happ] at h2
          refine ⟨?_, h2⟩
          obtain ⟨t, ht⟩ := h1
          cases t with
          | nil => exact absurd (by simpa using ht.symm) hq
          | cons t0 ts =>
            subst ht
            rw [List.prefix_append_right_inj] at h2
            have := (List.cons_prefix_cons.mp h2).1
            subst this
            exact ⟨ts, by simp⟩
        rw [if_neg hc, if_neg hc', if_neg hq]

/-- The call `mkdirSync(dir, recursive)` on a tree, from a directory `done` on: it fails
exactly when a file lies on the way, and then changes nothing; otherwise it
creates the missing directories on the way and nothing else. -/
theorem mkdirWalk_spec (fs : FS) (hwf : fs.WF) (todo : List Str) :
    ∀ done : Path, fs done = some Node.dir →
      ((∀ q, done <+: q → q <+: done ++ todo → ∀ c, fs q ≠ some (Node.file c)) →
        mkdirWalk fs done todo
          = (fun q => if q <+: done ++ todo ∧ fs q = none then some Node.dir else fs q, true)) ∧
      (¬ (∀ q, done <+: q → q <+: done ++ todo → ∀ c, fs q ≠ some (Node.file c)) →
        mkdirWalk fs done todo = (fs, false)) := by
  induction todo with
  | nil =>
    intro done hdone
    constructor
    · intro _
      simp only [mkdirWalk, List.append_nil]
      congr 1
      funext q
      by_cases hq : q <+: done ∧ fs q = none
      · exfalso
        by_cases hqd : q = done
        · rw [hqd, hdone] at hq; simp at hq
        · have := hwf.ancestors done (by rw [hdone]; simp) q hq.1 hqd
          rw [this] at hq; simp at hq
      · rw [if_neg hq]
    · intro h
      exfalso
      apply h
      intro q h1 h2 c
      rw [List.append_nil] at h2
      have : q = done := h2.eq_of_length_le h1.length_le
      rw [this, hdone]
      simp
  | cons seg segs ih =>
    intro done hdone
    have happ : done ++ seg :: segs = (done ++ [seg]) ++ segs := by simp
    have hsplit : ∀ q, done <+: q → q <+: done ++ seg :: segs →
        q = done ∨ (done ++ [seg] <+: q ∧ q <+: (done ++ [seg]) ++ segs) := by
      intro q h1 h2
      obtain ⟨t, ht⟩ := h1
      cases t with
      | nil => exact Or.inl (by simpa using ht.symm)
      | cons t0 ts =>
        right
        subst ht
        rw [List.prefix_append_right_inj] at h2
        have := (List.cons_prefix_cons.mp h2).1
        subst this
        exact ⟨⟨ts, by simp⟩, by rw [← happ, List.prefix_append_right_inj]; exact h2⟩
    cases hcase : fs (done ++ [seg]) with
    | none =>
      have hfresh : ∀ q, done ++ [seg] <+: q → fs q = none := by
        intro q hq
        by_contra hne
        by_cases hqe : q = done ++ [seg]
        · exact hne (hqe ▸ hcase)
        · have := hwf.ancestors q hne (done ++ [seg]) hq (Ne.symm hqe)
          rw [hcase] at this
          cases this
      have hw := mkdirWalk_fresh segs fs done seg hfresh
      have hnofile : ∀ q, done <+: q → q <+: done ++ seg :: segs → ∀ c, fs q ≠ some (Node.file c) := by
        intro q h1 h2 c
        rcases hsplit q h1 h2 with rfl | ⟨h3, -⟩
        · rw [hdone]; simp
        · rw [hfresh q h3]; simp
      refine ⟨fun _ => ?_, fun h => absurd hnofile h⟩
      rw [hw]
      congr 1
      funext q
      by_cases hc : done ++ [seg] <+: q ∧ q <+: done ++ seg :: segs
      · rw [if_pos hc, if_pos ⟨hc.2, hfresh q hc.1⟩]
      · rw [if_neg hc]
        by_cases hc2 : q <+: done ++ seg :: segs ∧ fs q = none
        · exfalso
          apply hc
          refine ⟨?_, hc2.1⟩
          rcases List.prefix_or_prefix_of_prefix hc2.1
            (show done ++ [seg] <+: done ++ seg :: segs by rw [happ]; exact List.prefix_append _ _)
            with h | h
          · by_cases hqe : q = done ++ [seg]
            · rw [hqe]
            · have hq' : q <+: done := by
                rcases List.prefix_concat_iff.mp h with h' | h'
                · exact absurd h' hqe
                · exact h'
              by_cases hqd : q = done
              · rw [hqd, hdone] at hc2; simp at hc2
              · have := hwf.ancestors done (by rw [hdone]; simp) q hq' hqd
                rw [this] at hc2; simp at hc2
          · exact h
        · rw [if_neg hc2]
    | some node =>
      cases node with
      | file c =>
        constructor
        · intro h
          exfalso
          exact h (done ++ [seg]) (List.prefix_append _ _)
            (by rw [happ]; exact List.prefix_append _ _) c hcase
        · intro _
          simp [mkdirWalk, hcase]
      | dir =>
        obtain ⟨ih1, ih2⟩ := ih (done ++ [seg]) hcase
        have hiff : (∀ q, done <+: q → q <+: done ++ seg :: segs → ∀ c, fs q ≠ some (Node.file c))
            ↔ (∀ q, done ++ [seg] <+: q → q <+: (done ++ [seg]) ++ segs →
                ∀ c, fs q ≠ some (Node.file c)) := by
          constructor
          · intro h q h1 h2
            exact h q ((List.prefix_append _ _).trans h1) (by rw [happ]; exact h2)
          · intro h q h1 h2 c
            rcases hsplit q h1 h2 with rfl | ⟨h3, h4⟩
            · rw [hdone]; simp
            · exact h q h3 h4 c
        constructor
        · intro h
          rw [mkdirWalk]
          simp only [hcase]
          rw [ih1 (hiff.mp h), happ]
        · intro h
          rw [mkdirWalk]
          simp only [hcase]
          exact ih2 (fun h' => h (hiff.mpr h'))

/-- The `try` block of the loop body on a tree: when the file can be written, the
result is the file system with the file written and its missing ancestors
created; otherwise an error is thrown and nothing has changed. -/
theorem attempt_posix (cwd : Str) (fs : FS) (hwf : fs.WF) (m : Match) :
    (fs.canWrite (pathResolve cwd (trim m.path)) →
      attempt posix cwd fs m
        = (fs.written (pathResolve cwd (trim m.path)) (trim m.body), true)) ∧
    (¬ fs.canWrite (pathResolve cwd (trim m.path)) → attempt posix cwd fs m = (fs, false)) := by
  unfold attempt dirReady
  generalize pathResolve cwd (trim m.path) = f
  generalize trim m.body = c
  have hroot : fs [] = some Node.dir := hwf.1
  have e1 : posix.existsSync = posixExists := rfl
  have e2 : posix.mkdirSync = fun fs p => mkdirWalk fs [] p := rfl
  have e3 : posix.writeFileSync = posixWrite := rfl
  rw [e1, e2, e3]
  beta_reduce
  cases hd : fs (dirname f) with
  | some node =>
    have hex : posixExists fs (dirname f) = true := by simp [posixExists, hd]
    simp only [hex, if_true]
    cases node with
    | dir =>
      have hanc : ∀ q, q <+: f → q ≠ f → fs q = some Node.dir := by
        intro q h1 h2
        have hf : f ≠ [] := by
          rintro rfl
          exact h2 (List.prefix_nil.mp h1)
        have hq : q <+: f.dropLast := (prefix_dropLast_iff hf).mpr ⟨h1, h2⟩
        by_cases hqd : q = f.dropLast
        · rw [hqd]; exact hd
        · exact hwf.ancestors (dirname f) (by rw [hd]; simp) q hq hqd
      constructor
      · intro hcw
        have hfn : fs f ≠ some Node.dir := hcw.2
        have hw : posixWrite fs f c = (fs.set f (Node.file c), true) := by
          unfold posixWrite
          rw [hd]
          cases hff : fs f with
          | none => rfl
          | some n =>
            cases n with
            | file _ => rfl
            | dir => exact absurd hff hfn
        rw [hw]
        congr 1
        funext q
        simp only [FS.set, FS.written]
        by_cases hq : q = f
        · simp [hq]
        · simp only [hq, if_false]
          by_cases hq2 : q <+: f ∧ fs q = none
          · have := hanc q hq2.1 hq
            rw [this] at hq2; simp at hq2
          · rw [if_neg hq2]
      · intro hcw
        have hfd : fs f = some Node.dir := by
          by_contra hne
          exact hcw ⟨fun q h1 h2 c => by rw [hanc q h1 h2]; simp, hne⟩
        simp [posixWrite, hd, hfd]
    | file x =>
      constructor
      · intro hcw
        exfalso
        have hf : f ≠ [] := by
          rintro rfl
          simp [dirname, hroot] at hd
        exact hcw.1 (dirname f) (List.dropLast_prefix f)
          ((prefix_dropLast_iff hf).mp (List.prefix_refl _)).2 x hd
      · intro _
        simp [posixWrite, hd]
  | none =>
    have hex : ¬ posixExists fs (dirname f) = true := by simp [posixExists, hd]
    rw [if_neg hex]
    have hf : f ≠ [] := by
      rintro rfl
      simp [dirname, hroot] at hd
    have hfnone : fs f = none := by
      by_contra hne
      have := hwf.2 f hne
      rw [hd] at this
      cases this
    obtain ⟨w1, w2⟩ := mkdirWalk_spec fs hwf (dirname f) [] hroot
    simp only [List.nil_append] at w1 w2
    have hiff : (∀ q, [] <+: q → q <+: dirname f → ∀ c, fs q ≠ some (Node.file c))
        ↔ fs.canWrite f := by
      constructor
      · intro h
        refine ⟨fun q h1 h2 c => h q (List.nil_prefix) ((prefix_dropLast_iff hf).mpr ⟨h1, h2⟩) c, ?_⟩
        rw [hfnone]; simp
      · intro h q _ h2 c
        have := (prefix_dropLast_iff hf).mp h2
        exact h.1 q this.1 this.2 c
    constructor
    · intro hcw
      rw [w1 (hiff.mpr hcw)]
      have hnotpre : ¬ f <+: dirname f := by
        intro h
        exact ((prefix_dropLast_iff hf).mp h).2 rfl
      have hw : posixWrite (fun q => if q <+: dirname f ∧ fs q = none then some Node.dir else fs q)
          f c = (FS.set (fun q => if q <+: dirname f ∧ fs q = none then some Node.dir else fs q)
            f (Node.file c), true) := by
        unfold posixWrite
        simp [hd, hnotpre, hfnone]
      show posixWrite (fun q => if q <+: dirname f ∧ fs q = none then some Node.dir else fs q)
          f c = _
      rw [hw]
      congr 1
      funext q
      simp only [FS.set, FS.written]
      by_cases hq : q = f
      · simp [hq]
      · simp only [hq, if_false]
        have : (q <+: dirname f ∧ fs q = none) ↔ (q <+: f ∧ fs q = none) := by
          constructor
          · rintro ⟨h1, h2⟩
            exact ⟨((prefix_dropLast_iff hf).mp h1).1, h2⟩
          · rintro ⟨h1, h2⟩
            exact ⟨(prefix_dropLast_iff hf).mpr ⟨h1, hq⟩, h2⟩
        simp only [this]
    · intro hcw
      rw [w2 (fun h => hcw (hiff.mp h))]

/-- The call `mkdirSync(dirname f, recursive)` on a tree where `dirname f` does not exist:
it creates the missing ancestors of `f` when `f` can be written, and fails without
any change otherwise. -/
theorem posixMkdir_of_parent_none (fs : FS) (hwf : fs.WF) (f : Path)
    (hd : fs (dirname f) = none) :
    (fs.canWrite f → posixMkdir fs (dirname f)
      = (fun q => if q <+: dirname f ∧ fs q = none then some Node.dir else fs q, true)) ∧
    (¬ fs.canWrite f → posixMkdir fs (dirname f) = (fs, false)) := by
  have hroot : fs [] = some Node.dir := hwf.1
  have hf : f ≠ [] := by
    rintro rfl
    simp [dirname, hroot] at hd
  have hfnone : fs f = none := by
    by_contra hne
    have := hwf.2 f hne
    rw [hd] at this
    cases this
  obtain ⟨w1, w2⟩ := mkdirWalk_spec fs hwf (dirname f) [] hroot
  simp only [List.nil_append] at w1 w2
  have hiff : (∀ q, [] <+: q → q <+: dirname f → ∀ c, fs q ≠ some (Node.file c))
      ↔ fs.canWrite f := by
    constructor
    · intro h
      refine ⟨fun q h1 h2 c => h q (List.nil_prefix) ((prefix_dropLast_iff hf).mpr ⟨h1, h2⟩) c, ?_⟩
      rw [hfnone]; simp
    · intro h q _ h2 c
      have := (prefix_dropLast_iff hf).mp h2
      exact h.1 q this.1 this.2 c
  exact ⟨fun h => w1 (hiff.mpr h), fun h => w2 (fun h' => h (hiff.mp h'))⟩

/-- Writing a file that can be written keeps the file system a tree. -/
theorem FS.WF.written {fs : FS} (hwf : fs.WF) (f : Path) (c : Str) (hcw : fs.canWrite f) :
    (fs.written f c).WF := by
  have hroot : fs [] = some Node.dir := hwf.1
  have hf : f ≠ [] := by
    rintro rfl
    exact hcw.2 hroot
  have hnofile : ∀ q, q <+: f → q ≠ f → fs q ≠ none → fs q = some Node.dir := by
    intro q h1 h2 h3
    cases hq : fs q with
    | none => exact absurd hq h3
    | some n =>
      cases n with
      | dir => rfl
      | file x => exact absurd hq (hcw.1 q h1 h2 x)
  have hanc : ∀ q, q <+: f → q ≠ f → fs.written f c q = some Node.dir := by
    intro q h1 h2
    simp only [FS.written, h2, if_false]
    by_cases hq : fs q = none
    · simp [h1, hq]
    · simp only [hq, and_false, if_false]
      exact hnofile q h1 h2 hq
  constructor
  · have : ([] : Path) ≠ f := Ne.symm hf
    simp [FS.written, this, hroot]
  · intro p hp
    by_cases hpf : p = f
    · subst hpf
      exact hanc _ (List.dropLast_prefix _) ((prefix_dropLast_iff hf).mp (List.prefix_refl _)).2
    · by_cases hcr : p <+: f ∧ fs p = none
      · have hpne : p ≠ [] := by
          rintro rfl
          rw [hroot] at hcr
          simp at hcr
        have h1 : dirname p <+: f := (List.dropLast_prefix p).trans hcr.1
        have h2 : dirname p ≠ f := by
          intro h
          have := hcr.1.length_le
          rw [← h] at this
          simp only [dirname, List.length_dropLast] at this
          have := List.length_pos.mpr hpne
          omega
        exact hanc _ h1 h2
      · have hpe : fs p ≠ none := by
          simpa [FS.written, hpf, hcr] using hp
        have hpar := hwf.2 p hpe
        have hne : dirname p ≠ f := by
          intro h
          rw [h] at hpar
          exact hcw.2 hpar
        simp [FS.written, hne, hpar]

/-- The loop body takes from the state only the file system: the counter and the
output are extended by what the body does on that file system. -/
theorem processMatch_indep {σ : Type} (ops : FsOps σ) (cwd : Str) (st : RunState σ) (m : Match) :
    processMatch ops cwd st m
      = ⟨(processMatch ops cwd ⟨st.fs, 0, []⟩ m).fs,
         st.filesCreated + (processMatch ops cwd ⟨st.fs, 0, []⟩ m).filesCreated,
         st.log ++ (processMatch ops cwd ⟨st.fs, 0, []⟩ m).log⟩ := by
  unfold processMatch
  by_cases hm : trim m.path = []
  · simp [hm]
  · simp only [hm, if_false]
    by_cases hex : ops.existsSync st.fs (dirname (pathResolve cwd (trim m.path))) = true
    · simp only [hex, if_true, writeStep]
      rcases ops.writeFileSync st.fs (pathResolve cwd (trim m.path)) (trim m.body) with ⟨fs2, ok⟩
      cases ok <;> simp
    · simp only [hex]
      rcases ops.mkdirSync st.fs (dirname (pathResolve cwd (trim m.path))) with ⟨fs1, ok1⟩
      cases ok1
      · simp
      · simp only [writeStep]
        rcases ops.writeFileSync fs1 (pathResolve cwd (trim m.path)) (trim m.body) with ⟨fs2, ok⟩
        cases ok <;> simp

theorem processAll_indep {σ : Type} (ops : FsOps σ) (cwd : Str) (ms : List Match)
    (st : RunState σ) :
    processAll ops cwd st ms
      = ⟨(processAll ops cwd ⟨st.fs, 0, []⟩ ms).fs,
         st.filesCreated + (processAll ops cwd ⟨st.fs, 0, []⟩ ms).filesCreated,
         st.log ++ (processAll ops cwd ⟨st.fs, 0, []⟩ ms).log⟩ := by
  induction ms generalizing st with
  | nil => simp [processAll]
  | cons m ms ih =>
    rw [processAll_cons, processAll_cons, ih (processMatch ops cwd st m),
      ih (processMatch ops cwd ⟨st.fs, 0, []⟩ m), processMatch_indep ops cwd st m]
    simp [Nat.add_assoc]

/-- The loop body on a tree, for a match with a marker path: when the file can be
written it is written, its missing ancestors are created, the counter is
incremented, and the output is the directory message (when the parent directory
did not exist) and the success message; otherwise nothing changes and the output
is the error message. -/
theorem processMatch_posix (cwd : Str) (fs : FS) (hwf : fs.WF) (m : Match)
    (hm : trim m.path ≠ []) :
    (fs.canWrite (pathResolve cwd (trim m.path)) →
      processMatch posix cwd ⟨fs, 0, []⟩ m
        = ⟨fs.written (pathResolve cwd (trim m.path)) (trim m.body), 1,
            (if fs (dirname (pathResolve cwd (trim m.path))) = none
              then [Msg.createdDirectory (dirname (pathResolve cwd (trim m.path)))] else [])
            ++ [Msg.wroteFile (pathResolve cwd (trim m.path))]⟩) ∧
    (¬ fs.canWrite (pathResolve cwd (trim m.path)) →
      processMatch posix cwd ⟨fs, 0, []⟩ m = ⟨fs, 0, [Msg.errorProcessing (trim m.path)]⟩) := by
  obtain ⟨a1, a2⟩ := attempt_posix cwd fs hwf m
  unfold attempt dirReady at a1 a2
  unfold processMatch writeStep
  simp only [hm, if_false]
  have e1 : posix.existsSync = posixExists := rfl
  have e2 : posix.mkdirSync = posixMkdir := rfl
  have e3 : posix.writeFileSync = posixWrite := rfl
  rw [e1, e2, e3] at a1 a2 ⊢
  generalize pathResolve cwd (trim m.path) = f at *
  generalize trim m.body = c at *
  cases hd : fs (dirname f) with
  | some node =>
    have hex : posixExists fs (dirname f) = true := by simp [posixExists, hd]
    simp only [hex, if_true] at a1 a2 ⊢
    constructor
    · intro hcw
      have := a1 hcw
      simp [this]
    · intro hcw
      have := a2 hcw
      simp [this]
  | none =>
    have hex : ¬ posixExists fs (dirname f) = true := by simp [posixExists, hd]
    obtain ⟨k1, k2⟩ := posixMkdir_of_parent_none fs hwf f hd
    rw [if_neg hex] at a1 a2 ⊢
    constructor
    · intro hcw
      have h1 := a1 hcw
      rw [k1 hcw] at h1 ⊢
      have h1' : posixWrite (fun q => if q <+: dirname f ∧ fs q = none then some Node.dir else fs q)
          f c = (fs.written f c, true) := h1
      simp [h1']
    · intro hcw
      rw [k2 hcw]
      simp

/-- The file system after one turn of the loop body on a tree: unchanged, or the
file written with its missing ancestors. -/
theorem processMatch_posix_fs (cwd : Str) (st : RunState FS) (hwf : st.fs.WF) (m : Match) :
    ((processMatch posix cwd st m).fs = st.fs ∧
      (trim m.path = [] ∨ ¬ st.fs.canWrite (pathResolve cwd (trim m.path)))) ∨
    (trim m.path ≠ [] ∧ st.fs.canWrite (pathResolve cwd (trim m.path)) ∧
      (processMatch posix cwd st m).fs
        = st.fs.written (pathResolve cwd (trim m.path)) (trim m.body)) := by
  rw [processMatch_indep]
  by_cases hm : trim m.path = []
  · left
    exact ⟨by simp [processMatch, hm], Or.inl hm⟩
  · obtain ⟨h1, h2⟩ := processMatch_posix cwd st.fs hwf m hm
    by_cases hcw : st.fs.canWrite (pathResolve cwd (trim m.path))
    · right
      exact ⟨hm, hcw, by rw [h1 hcw]⟩
    · left
      exact ⟨by rw [h2 hcw], Or.inr hcw⟩

theorem processMatch_posix_WF (cwd : Str) (st : RunState FS) (hwf : st.fs.WF) (m : Match) :
    (processMatch posix cwd st m).fs.WF := by
  rcases processMatch_posix_fs cwd st hwf m with ⟨h, -⟩ | ⟨-, hcw, h⟩
  · rw [h]; exact hwf
  · rw [h]; exact hwf.written _ _ hcw

theorem processAll_posix_WF (cwd : Str) (ms : List Match) (st : RunState FS) (hwf : st.fs.WF) :
    (processAll posix cwd st ms).fs.WF := by
  induction ms generalizing st with
  | nil => exact hwf
  | cons m ms ih =>
    rw [processAll_cons]
    exact ih _ (processMatch_posix_WF cwd st hwf m)

/-- A directory with its ancestors and nothing else is a tree. -/
theorem onlyDir_WF (d : Path) : (onlyDir d).WF := by
  constructor
  · simp [onlyDir]
  · intro p hp
    have hp' : p <+: d := by
      by_contra h
      simp [onlyDir, h] at hp
    have : dirname p <+: d := (List.dropLast_prefix p).trans hp'
    simp [onlyDir, this]

/-! ## C4: what materializing a block does to the file system -/

/-- The loop body on a tree when its `try` block completes: the file holds the
trimmed body, its proper ancestors are directories, the other nodes that existed
are unchanged, and what is new lies on the path to the file. -/
theorem processMatch_posix_success (cwd : Str) (st : RunState FS) (m : Match) (hwf : st.fs.WF)
    (hm : trim m.path ≠ []) (hok : (attempt posix cwd st.fs m).2 = true) :
    (processMatch posix cwd st m).fs (pathResolve cwd (trim m.path))
      = some (Node.file (trim m.body)) ∧
    (∀ q, q <+: pathResolve cwd (trim m.path) → q ≠ pathResolve cwd (trim m.path) →
      (processMatch posix cwd st m).fs q = some Node.dir) ∧
    (∀ q, q ≠ pathResolve cwd (trim m.path) → st.fs q ≠ none →
      (processMatch posix cwd st m).fs q = st.fs q) ∧
    (∀ q, st.fs q = none → (processMatch posix cwd st m).fs q ≠ none →
      q <+: pathResolve cwd (trim m.path)) ∧
    (processMatch posix cwd st m).fs.WF := by
  have hcw : st.fs.canWrite (pathResolve cwd (trim m.path)) := by
    by_contra h
    rw [(attempt_posix cwd st.fs hwf m).2 h] at hok
    cases hok
  have hfs : (processMatch posix cwd st m).fs
      = st.fs.written (pathResolve cwd (trim m.path)) (trim m.body) := by
    rw [(processMatch_attempt posix cwd st m hm).1, (attempt_posix cwd st.fs hwf m).1 hcw]
  have hwf' := hwf.written (pathResolve cwd (trim m.path)) (trim m.body) hcw
  rw [hfs]
  generalize pathResolve cwd (trim m.path) = f at *
  refine ⟨by simp [FS.written], ?_, ?_, ?_, hwf'⟩
  · intro q h1 h2
    exact hwf'.ancestors f (by simp [FS.written]) q h1 h2
  · intro q h1 h2
    simp [FS.written, h1, h2]
  · intro q h1 h2
    by_cases hq : q = f
    · rw [hq]
    · by_contra hnp
      apply h2
      simp [FS.written, hq, hnp, h1]

/-- C4: when the `try` block of the loop body completes for a match with
marker path `p` and body `c` on a file system that is a tree, then afterwards the
file at `path.resolve(cwd, trim p)` holds exactly `trim c`, every proper ancestor of
that file is a directory, every other node that existed before is unchanged, what
did not exist before and exists now lies on the path to the file, and the file
system is still a tree.  On a file system without `lib/`, the block with marker
`lib/foo.txt` and body `hello` creates the directory `lib` and the file
`lib/foo.txt` with content `hello`. -/
theorem C4_materialize (cwd : Str) (st : RunState FS) (m : Match) (hwf : st.fs.WF)
    (hm : trim m.path ≠ []) (hok : (attempt posix cwd st.fs m).2 = true) :
    (processMatch posix cwd st m).fs (pathResolve cwd (trim m.path))
      = some (Node.file (trim m.body)) ∧
    (∀ q, q <+: pathResolve cwd (trim m.path) → q ≠ pathResolve cwd (trim m.path) →
      (processMatch posix cwd st m).fs q = some Node.dir) ∧
    (∀ q, q ≠ pathResolve cwd (trim m.path) → st.fs q ≠ none →
      (processMatch posix cwd st m).fs q = st.fs q) ∧
    (∀ q, st.fs q = none → (processMatch posix cwd st m).fs q ≠ none →
      q <+: pathResolve cwd (trim m.path)) ∧
    (processMatch posix cwd st m).fs.WF ∧
    ((onlyDir ["w".toList]) ["w".toList, "lib".toList] = none ∧
      (processText posix "/w".toList "```markdown\n// FILE: lib/foo.txt\nhello\n```".toList
        ⟨onlyDir ["w".toList], 0, []⟩).fs ["w".toList, "lib".toList] = some Node.dir ∧
      (processText posix "/w".toList "```markdown\n// FILE: lib/foo.txt\nhello\n```".toList
        ⟨onlyDir ["w".toList], 0, []⟩).fs ["w".toList, "lib".toList, "foo.txt".toList]
        = some (Node.file "hello".toList) ∧
      (processText posix "/w".toList "```markdown\n// FILE: lib/foo.txt\nhello\n```".toList
        ⟨onlyDir ["w".toList], 0, []⟩).log
        = [Msg.createdDirectory ["w".toList, "lib".toList],
            Msg.wroteFile ["w".toList, "lib".toList, "foo.txt".toList],
            Msg.successSummary 1]) := by
  obtain ⟨h1, h2, h3, h4, h5⟩ := processMatch_posix_success cwd st m hwf hm hok
  exact ⟨h1, h2, h3, h4, h5, by decide⟩

/-- C4 on the block `lib/foo.txt` with body `hello` in the directory `/w`. -/
theorem C4_materialize_witness :
    ((onlyDir ["w".toList]).WF ∧ trim "lib/foo.txt".toList ≠ [] ∧
      (attempt posix "/w".toList (onlyDir ["w".toList])
        ⟨"lib/foo.txt".toList, "hello\n".toList, []⟩).2 = true) ∧
    (processMatch posix "/w".toList ⟨onlyDir ["w".toList], 0, []⟩
        ⟨"lib/foo.txt".toList, "hello\n".toList, []⟩).fs
        (pathResolve "/w".toList (trim "lib/foo.txt".toList))
      = some (Node.file (trim "hello\n".toList)) :=
  ⟨⟨onlyDir_WF _, by decide, by decide⟩,
    (C4_materialize "/w".toList ⟨onlyDir ["w".toList], 0, []⟩
      ⟨"lib/foo.txt".toList, "hello\n".toList, []⟩ (onlyDir_WF _) (by decide) (by decide)).1⟩

/-! ## C5: running twice -/

/-- Writing a file keeps every node that exists, up to the content of the file
written. -/
theorem written_shape (fs : FS) (f : Path) (c : Str) (hcw : fs.canWrite f) (q : Path)
    (hq : fs q ≠ none) : ((fs.written f c) q).map Node.isDir = (fs q).map Node.isDir := by
  by_cases hqf : q = f
  · subst hqf
    cases hn : fs q with
    | none => exact absurd hn hq
    | some n =>
      cases n with
      | dir => exact absurd hn hcw.2
      | file x => simp [FS.written, Node.isDir]
  · simp [FS.written, hqf, hq]

theorem processMatch_posix_shape (cwd : Str) (st : RunState FS) (hwf : st.fs.WF) (m : Match)
    (q : Path) (hq : st.fs q ≠ none) :
    ((processMatch posix cwd st m).fs q).map Node.isDir = (st.fs q).map Node.isDir := by
  rcases processMatch_posix_fs cwd st hwf m with ⟨h, -⟩ | ⟨-, hcw, h⟩
  · rw [h]
  · rw [h]; exact written_shape _ _ _ hcw q hq

/-- The loop keeps every node that exists, up to the content of the files. -/
theorem processAll_posix_shape (cwd : Str) (ms : List Match) (st : RunState FS) (hwf : st.fs.WF)
    (q : Path) (hq : st.fs q ≠ none) :
    ((processAll posix cwd st ms).fs q).map Node.isDir = (st.fs q).map Node.isDir := by
  induction ms generalizing st with
  | nil => rfl
  | cons m ms ih =>
    rw [processAll_cons]
    have h1 := processMatch_posix_shape cwd st hwf m q hq
    have hq' : (processMatch posix cwd st m).fs q ≠ none := by
      intro h0
      rw [h0] at h1
      cases hn : st.fs q with
      | none => exact hq hn
      | some n => rw [hn] at h1; cases h1
    rw [ih _ (processMatch_posix_WF cwd st hwf m) hq', h1]

theorem map_isDir_eq_dir {x : Option Node} (h : x.map Node.isDir = some true) :
    x = some Node.dir := by
  cases x with
  | none => cases h
  | some n =>
    cases n with
    | dir => rfl
    | file c => simp [Node.isDir] at h

theorem map_isDir_eq_file {x : Option Node} (h : x.map Node.isDir = some false) :
    ∃ c, x = some (Node.file c) := by
  cases x with
  | none => cases h
  | some n =>
    cases n with
    | dir => simp [Node.isDir] at h
    | file c => exact ⟨c, rfl⟩

theorem processAll_cons_indep {σ : Type} (ops : FsOps σ) (cwd : Str) (fs : σ) (m : Match)
    (ms : List Match) :
    processAll ops cwd ⟨fs, 0, []⟩ (m :: ms)
      = ⟨(processAll ops cwd ⟨(processMatch ops cwd ⟨fs, 0, []⟩ m).fs, 0, []⟩ ms).fs,
         (processMatch ops cwd ⟨fs, 0, []⟩ m).filesCreated
          + (processAll ops cwd ⟨(processMatch ops cwd ⟨fs, 0, []⟩ m).fs, 0, []⟩ ms).filesCreated,
         (processMatch ops cwd ⟨fs, 0, []⟩ m).log
          ++ (processAll ops cwd ⟨(processMatch ops cwd ⟨fs, 0, []⟩ m).fs, 0, []⟩ ms).log⟩ := by
  rw [processAll_cons, processAll_indep]

/-- The loop run on a file system `t` that has the nodes of the result of the
same loop run on `s`, and at each path the content of `s` or of that result, ends
in the same file system, counts the same files, and prints the same messages but
those of directories created. -/
theorem posix_rerun (cwd : Str) (ms : List Match) :
    ∀ (s t : FS), s.WF → t.WF →
      t.sameShape (processAll posix cwd ⟨s, 0, []⟩ ms).fs →
      (∀ q, t q = s q ∨ t q = (processAll posix cwd ⟨s, 0, []⟩ ms).fs q) →
      (processAll posix cwd ⟨t, 0, []⟩ ms).fs = (processAll posix cwd ⟨s, 0, []⟩ ms).fs ∧
      (processAll posix cwd ⟨t, 0, []⟩ ms).filesCreated
        = (processAll posix cwd ⟨s, 0, []⟩ ms).filesCreated ∧
      (processAll posix cwd ⟨t, 0, []⟩ ms).log
        = (processAll posix cwd ⟨s, 0, []⟩ ms).log.filter (fun x => !x.isCreatedDir) := by
  induction ms with
  | nil =>
    intro s t _ _ _ hor
    refine ⟨?_, rfl, rfl⟩
    funext q
    rcases hor q with h | h
    · exact h
    · exact h
  | cons m ms ih =>
    intro s t hs ht hshape hor
    rw [processAll_cons_indep] at hshape hor ⊢
    rw [processAll_cons_indep]
    simp only at hshape hor ⊢
    by_cases hm : trim m.path = []
    · have e1 : ∀ fs : FS, processMatch posix cwd ⟨fs, 0, []⟩ m = ⟨fs, 0, [Msg.skipWarning]⟩ := by
        intro fs
        simp [processMatch, hm]
      rw [e1 s] at hshape hor ⊢
      rw [e1 t]
      obtain ⟨i1, i2, i3⟩ := ih s t hs ht hshape hor
      refine ⟨i1, by simp [i2], ?_⟩
      simp [i3, List.filter_cons, Msg.isCreatedDir]
    · obtain ⟨ps1, ps2⟩ := processMatch_posix cwd s hs m hm
      obtain ⟨pt1, pt2⟩ := processMatch_posix cwd t ht m hm
      generalize pathResolve cwd (trim m.path) = f at *
      generalize trim m.body = c at *
      by_cases hcw : s.canWrite f
      · rw [ps1 hcw] at hshape hor ⊢
        simp only at hshape hor ⊢
        have hs' : (s.written f c).WF := hs.written f c hcw
        have hf : f ≠ [] := by
          rintro rfl
          exact hcw.2 hs.1
        -- the nodes on the way to `f` in the result of the first run, hence in `t`
        have hSf : ((processAll posix cwd ⟨s.written f c, 0, []⟩ ms).fs f).map Node.isDir
            = some false := by
          rw [processAll_posix_shape cwd ms ⟨s.written f c, 0, []⟩ hs' f (by simp [FS.written])]
          simp [FS.written, Node.isDir]
        have hSq : ∀ q, q <+: f → q ≠ f →
            ((processAll posix cwd ⟨s.written f c, 0, []⟩ ms).fs q).map Node.isDir = some true := by
          intro q h1 h2
          have hd : (s.written f c) q = some Node.dir :=
            hs'.ancestors f (by simp [FS.written]) q h1 h2
          rw [processAll_posix_shape cwd ms ⟨s.written f c, 0, []⟩ hs' q (by simp [hd])]
          simp [hd, Node.isDir]
        obtain ⟨x, htf⟩ := map_isDir_eq_file ((hshape f).trans hSf)
        have htq : ∀ q, q <+: f → q ≠ f → t q = some Node.dir := fun q h1 h2 =>
          map_isDir_eq_dir ((hshape q).trans (hSq q h1 h2))
        have hcwt : t.canWrite f := by
          refine ⟨fun q h1 h2 y => ?_, ?_⟩
          · rw [htq q h1 h2]; simp
          · rw [htf]; simp
        have htw : ∀ q, (t.written f c) q = if q = f then some (Node.file c) else t q := by
          intro q
          by_cases hq : q = f
          · simp [FS.written, hq]
          · simp only [FS.written, hq, if_false]
            by_cases hq2 : q <+: f ∧ t q = none
            · rw [htq q hq2.1 hq] at hq2
              simp at hq2
            · rw [if_neg hq2]
        have htd : t (dirname f) ≠ none := by
          rw [htq (dirname f) (List.dropLast_prefix f)
            ((prefix_dropLast_iff hf).mp (List.prefix_refl _)).2]
          simp
        rw [pt1 hcwt]
        simp only [htd, if_false]
        obtain ⟨i1, i2, i3⟩ := ih (s.written f c) (t.written f c) hs' (ht.written f c hcwt) (by
          intro q
          rw [htw q]
          by_cases hq : q = f
          · rw [if_pos hq, hq, hSf]
            rfl
          · rw [if_neg hq]
            exact hshape q) (by
          intro q
          rw [htw q]
          by_cases hq : q = f
          · left
            simp [FS.written, hq]
          · rw [if_neg hq]
            rcases hor q with h | h
            · by_cases hq2 : q <+: f ∧ s q = none
              · exfalso
                have := htq q hq2.1 hq
                rw [h, hq2.2] at this
                cases this
              · left
                rw [h]
                simp [FS.written, hq, hq2]
            · exact Or.inr h)
        refine ⟨i1, by rw [i2], ?_⟩
        rw [i3]
        by_cases hsd : s (dirname f) = none
        · simp [hsd, List.filter_cons, Msg.isCreatedDir]
        · simp [hsd, List.filter_cons, Msg.isCreatedDir]
      · rw [ps2 hcw] at hshape hor ⊢
        simp only at hshape hor ⊢
        have hmono : ∀ q, s q ≠ none →
            ((processAll posix cwd ⟨s, 0, []⟩ ms).fs q).map Node.isDir = (s q).map Node.isDir :=
          fun q hq => processAll_posix_shape cwd ms ⟨s, 0, []⟩ hs q hq
        have hcwt : ¬ t.canWrite f := by
          intro hct
          apply hcw
          refine ⟨fun q h1 h2 y hy => ?_, fun hy => ?_⟩
          · have h3 := hmono q (by simp [hy])
            rw [hy] at h3
            have h4 := (hshape q).trans h3
            obtain ⟨z, hz⟩ := map_isDir_eq_file (by simpa [Node.isDir] using h4)
            exact hct.1 q h1 h2 z hz
          · have h3 := hmono f (by simp [hy])
            rw [hy] at h3
            have h4 := (hshape f).trans h3
            exact hct.2 (map_isDir_eq_dir (by simpa [Node.isDir] using h4))
        rw [pt2 hcwt]
        obtain ⟨i1, i2, i3⟩ := ih s t hs ht hshape hor
        refine ⟨i1, by simp [i2], ?_⟩
        simp [i3, List.filter_cons, Msg.isCreatedDir]

/-- C5: on a file system that is a tree, running the loop and the summary a
second time on the same text, from the file system the first run left, ends in
exactly that file system; both runs report the same count; the second run prints
what the first printed except the messages of directories created, so it creates
no directory, writes again every file the first run wrote, and fails exactly where
the first run failed. -/
theorem C5_second_run_changes_nothing (cwd text : Str) (fs : FS) (hwf : fs.WF) :
    (processText posix cwd text ⟨(processText posix cwd text ⟨fs, 0, []⟩).fs, 0, []⟩).fs
        = (processText posix cwd text ⟨fs, 0, []⟩).fs ∧
    (processText posix cwd text ⟨(processText posix cwd text ⟨fs, 0, []⟩).fs, 0, []⟩).filesCreated
        = (processText posix cwd text ⟨fs, 0, []⟩).filesCreated ∧
    (processText posix cwd text ⟨(processText posix cwd text ⟨fs, 0, []⟩).fs, 0, []⟩).log
        = (processText posix cwd text ⟨fs, 0, []⟩).log.filter (fun x => !x.isCreatedDir) ∧
    (∀ x ∈ (processText posix cwd text
        ⟨(processText posix cwd text ⟨fs, 0, []⟩).fs, 0, []⟩).log, x.isCreatedDir = false) ∧
    (processText posix cwd text
        ⟨(processText posix cwd text ⟨fs, 0, []⟩).fs, 0, []⟩).log.filter Msg.isWrote
        = (processText posix cwd text ⟨fs, 0, []⟩).log.filter Msg.isWrote ∧
    (processText posix cwd text
        ⟨(processText posix cwd text ⟨fs, 0, []⟩).fs, 0, []⟩).log.filter Msg.isError
        = (processText posix cwd text ⟨fs, 0, []⟩).log.filter Msg.isError := by
  have hS : (processAll posix cwd ⟨fs, 0, []⟩ (allMatches text)).fs.WF :=
    processAll_posix_WF cwd _ _ hwf
  obtain ⟨i1, i2, i3⟩ := posix_rerun cwd (allMatches text) fs
    (processAll posix cwd ⟨fs, 0, []⟩ (allMatches text)).fs hwf hS (fun _ => rfl)
    (fun _ => Or.inr rfl)
  have hlog : (processText posix cwd text
      ⟨(processText posix cwd text ⟨fs, 0, []⟩).fs, 0, []⟩).log
      = (processText posix cwd text ⟨fs, 0, []⟩).log.filter (fun x => !x.isCreatedDir) := by
    simp only [processText, loop_eq_processAll, i2, i3, List.filter_append]
    congr 1
    simp only [summary]
    split <;> simp [Msg.isCreatedDir]
  refine ⟨?_, ?_, hlog, ?_, ?_, ?_⟩
  · simpa [processText, loop_eq_processAll] using i1
  · simpa [processText, loop_eq_processAll] using i2
  · intro x hx
    rw [hlog] at hx
    simpa using (List.mem_filter.mp hx).2
  · rw [hlog, List.filter_filter]
    apply List.filter_congr
    intro x _
    cases x <;> simp [Msg.isWrote, Msg.isCreatedDir]
  · rw [hlog, List.filter_filter]
    apply List.filter_congr
    intro x _
    cases x <;> simp [Msg.isError, Msg.isCreatedDir]

/-- C5 on the text of `demoFailThenWrite` in the directory `/w`. -/
theorem C5_second_run_changes_nothing_witness :
    (onlyDir ["w".toList]).WF ∧
    (processText posix "/w".toList demoFailThenWrite
        ⟨(processText posix "/w".toList demoFailThenWrite ⟨onlyDir ["w".toList], 0, []⟩).fs,
          0, []⟩).fs
      = (processText posix "/w".toList demoFailThenWrite ⟨onlyDir ["w".toList], 0, []⟩).fs ∧
    (processText posix "/w".toList demoFailThenWrite
        ⟨(processText posix "/w".toList demoFailThenWrite ⟨onlyDir ["w".toList], 0, []⟩).fs,
          0, []⟩).filesCreated = 1 :=
  ⟨onlyDir_WF _,
    (C5_second_run_changes_nothing "/w".toList demoFailThenWrite (onlyDir ["w".toList])
      (onlyDir_WF _)).1,
    by decide⟩

/-! ## C6 and C8: where the loop writes -/

/-- One turn of the loop body on a tree changes only the file it writes and the
missing ancestors of that file. -/
theorem processMatch_posix_frame (cwd : Str) (st : RunState FS) (hwf : st.fs.WF) (m : Match)
    (q : Path) (hq : (processMatch posix cwd st m).fs q ≠ st.fs q) :
    trim m.path ≠ [] ∧ q <+: pathResolve cwd (trim m.path) ∧
      (q = pathResolve cwd (trim m.path) ∨ st.fs q = none) := by
  rcases processMatch_posix_fs cwd st hwf m with ⟨h, -⟩ | ⟨hm, -, h⟩
  · rw [h] at hq
    exact absurd rfl hq
  · rw [h] at hq
    refine ⟨hm, ?_⟩
    by_cases hqf : q = pathResolve cwd (trim m.path)
    · exact ⟨hqf ▸ List.prefix_refl _, Or.inl hqf⟩
    · by_cases hc : q <+: pathResolve cwd (trim m.path) ∧ st.fs q = none
      · exact ⟨hc.1, Or.inr hc.2⟩
      · simp [FS.written, hqf, hc] at hq

theorem splitSlash_ne_nil (a : Str) : splitSlash a ≠ [] := by
  induction a with
  | nil => simp [splitSlash]
  | cons c cs ih =>
    unfold splitSlash
    by_cases hc : c = '/'
    · simp [hc]
    · simp only [hc, if_false]
      cases hs : splitSlash cs with
      | nil => simp
      | cons seg segs => simp

theorem splitSlash_append (a b : Str) :
    splitSlash (a ++ '/' :: b) = splitSlash a ++ splitSlash b := by
  induction a with
  | nil => simp [splitSlash]
  | cons c cs ih =>
    show splitSlash (c :: (cs ++ '/' :: b)) = splitSlash (c :: cs) ++ splitSlash b
    by_cases hc : c = '/'
    · simp [splitSlash, hc, ih]
    · have h1 : splitSlash (c :: (cs ++ '/' :: b))
          = (match splitSlash (cs ++ '/' :: b) with
              | [] => [[c]]
              | seg :: segs => (c :: seg) :: segs) := by
        rw [splitSlash]; simp [hc]
      have h2 : splitSlash (c :: cs)
          = (match splitSlash cs with
              | [] => [[c]]
              | seg :: segs => (c :: seg) :: segs) := by
        rw [splitSlash]; simp [hc]
      rw [h1, h2, ih]
      cases hs : splitSlash cs with
      | nil => exact absurd hs (splitSlash_ne_nil cs)
      | cons seg segs => rfl

theorem normalizeSegs_append (stack : Path) (xs ys : List Str) :
    normalizeSegs stack (xs ++ ys) = normalizeSegs (normalizeSegs stack xs) ys := by
  induction xs generalizing stack with
  | nil => rfl
  | cons x xs ih =>
    simp only [List.cons_append, normalizeSegs]
    split
    · exact ih _
    · split
      · exact ih _
      · exact ih _

/-- Segments without `..` only extend the path. -/
theorem normalizeSegs_extends (stack : Path) (segs : List Str) (h : "..".toList ∉ segs) :
    stack <+: normalizeSegs stack segs := by
  induction segs generalizing stack with
  | nil => exact List.prefix_refl _
  | cons x xs ih =>
    have hx : x ≠ "..".toList := fun e => h (e ▸ List.mem_cons_self _ _)
    have hxs : "..".toList ∉ xs := fun e => h (List.mem_cons_of_mem _ e)
    simp only [normalizeSegs, hx, if_false]
    split
    · exact ih _ hxs
    · exact (List.prefix_append _ _).trans (ih _ hxs)

/-- A relative path is resolved from the working directory on. -/
theorem pathResolve_relative (cwd rel : Str) (hrel : rel.head? ≠ some '/') :
    pathResolve cwd rel = normalizeSegs (cwdPath cwd) (splitSlash rel) := by
  unfold pathResolve cwdPath
  rw [if_neg hrel, splitSlash_append, normalizeSegs_append]

/-- The loop on a tree whose working directory exists, when every marker path
resolves under the working directory: nothing changes outside it. -/
theorem processAll_posix_under (cwd : Str) (ms : List Match) :
    ∀ (st : RunState FS), st.fs.WF → st.fs (cwdPath cwd) = some Node.dir →
      (∀ m ∈ ms, trim m.path ≠ [] → cwdPath cwd <+: pathResolve cwd (trim m.path)) →
      ∀ q, ¬ cwdPath cwd <+: q → (processAll posix cwd st ms).fs q = st.fs q := by
  induction ms with
  | nil => intro st _ _ _ q _; rfl
  | cons m ms ih =>
    intro st hwf hcwd hunder q hq
    rw [processAll_cons]
    have hstep : ∀ r, ¬ cwdPath cwd <+: r → (processMatch posix cwd st m).fs r = st.fs r := by
      intro r hr
      by_contra hne
      obtain ⟨hm, hpre, hor⟩ := processMatch_posix_frame cwd st hwf m r hne
      have hu := hunder m (by simp) hm
      rcases hor with h | h
      · exact hr (h ▸ hu)
      · rcases List.prefix_or_prefix_of_prefix hpre hu with h2 | h2
        · by_cases hrc : r = cwdPath cwd
          · exact hr (hrc ▸ List.prefix_refl _)
          · have := hwf.ancestors (cwdPath cwd) (by rw [hcwd]; simp) r h2 hrc
            rw [h] at this
            cases this
        · exact hr h2
    have hcwd' : (processMatch posix cwd st m).fs (cwdPath cwd) = some Node.dir := by
      have := processMatch_posix_shape cwd st hwf m (cwdPath cwd) (by rw [hcwd]; simp)
      rw [hcwd] at this
      exact map_isDir_eq_dir (by simpa [Node.isDir] using this)
    rw [ih _ (processMatch_posix_WF cwd st hwf m) hcwd'
      (fun m' hm' => hunder m' (by simp [hm'])) q hq]
    exact hstep q hq

/-- C6 (as stated) fails: a marker path `../x.txt`, or the absolute marker path
`/etc/x.txt`, makes the run in `/w/d` write a file outside `/w/d`. -/
theorem C6_counterexample :
    (¬ cwdPath "/w/d".toList <+: ["w".toList, "x.txt".toList] ∧
      (onlyDir ["w".toList, "d".toList]) ["w".toList, "x.txt".toList] = none ∧
      (processText posix "/w/d".toList demoEscape
        ⟨onlyDir ["w".toList, "d".toList], 0, []⟩).fs ["w".toList, "x.txt".toList]
        = some (Node.file "hi".toList)) ∧
    (¬ cwdPath "/w/d".toList <+: ["etc".toList, "x.txt".toList] ∧
      (onlyDir ["w".toList, "d".toList]) ["etc".toList] = none ∧
      (processText posix "/w/d".toList demoAbsolute
        ⟨onlyDir ["w".toList, "d".toList], 0, []⟩).fs ["etc".toList] = some Node.dir ∧
      (processText posix "/w/d".toList demoAbsolute
        ⟨onlyDir ["w".toList, "d".toList], 0, []⟩).fs ["etc".toList, "x.txt".toList]
        = some (Node.file "hi".toList)) := by
  decide

/-- C6 (amended): on a tree whose working directory exists, when every marker
path of the text resolves to a place under the working directory, the run changes
nothing outside the working directory: every file written and every directory
created lies under it.  Every relative marker path without a `..` segment
resolves under the working directory. -/
theorem C6_changes_under_cwd (cwd text : Str) (fs : FS) (hwf : fs.WF)
    (hcwd : fs (cwdPath cwd) = some Node.dir)
    (hunder : ∀ m ∈ allMatches text, trim m.path ≠ [] →
      cwdPath cwd <+: pathResolve cwd (trim m.path)) :
    (∀ q, ¬ cwdPath cwd <+: q → (processText posix cwd text ⟨fs, 0, []⟩).fs q = fs q) ∧
    (∀ rel : Str, rel.head? ≠ some '/' → "..".toList ∉ splitSlash rel →
      cwdPath cwd <+: pathResolve cwd rel) := by
  constructor
  · intro q hq
    simp only [processText, loop_eq_processAll]
    exact processAll_posix_under cwd (allMatches text) ⟨fs, 0, []⟩ hwf hcwd hunder q hq
  · intro rel h1 h2
    rw [pathResolve_relative cwd rel h1]
    exact normalizeSegs_extends _ _ h2

/-- C6 (amended) on the text of `demoFailThenWrite` in the directory `/w/d`. -/
theorem C6_changes_under_cwd_witness :
    ((onlyDir ["w".toList, "d".toList]).WF ∧
      (onlyDir ["w".toList, "d".toList]) (cwdPath "/w/d".toList) = some Node.dir ∧
      ∀ m ∈ allMatches demoFailThenWrite, trim m.path ≠ [] →
        cwdPath "/w/d".toList <+: pathResolve "/w/d".toList (trim m.path)) ∧
    (processText posix "/w/d".toList demoFailThenWrite
        ⟨onlyDir ["w".toList, "d".toList], 0, []⟩).fs ["w".toList, "a.txt".toList]
      = (onlyDir ["w".toList, "d".toList]) ["w".toList, "a.txt".toList] :=
  ⟨⟨onlyDir_WF _, by decide, by decide⟩,
    (C6_changes_under_cwd "/w/d".toList demoFailThenWrite (onlyDir ["w".toList, "d".toList])
      (onlyDir_WF _) (by decide) (by decide)).1 ["w".toList, "a.txt".toList] (by decide)⟩

/-- A file stays as it is while the loop processes matches that resolve to other
paths. -/
theorem processAll_posix_keeps (cwd : Str) (f : Path) (n : Node) (ms : List Match) :
    ∀ (st : RunState FS), st.fs.WF → st.fs f = some n →
      (∀ m ∈ ms, trim m.path ≠ [] → pathResolve cwd (trim m.path) ≠ f) →
      (processAll posix cwd st ms).fs f = some n := by
  induction ms with
  | nil => intro st _ h _; exact h
  | cons m ms ih =>
    intro st hwf hf hother
    rw [processAll_cons]
    have hstep : (processMatch posix cwd st m).fs f = some n := by
      by_contra hne
      have hne' : (processMatch posix cwd st m).fs f ≠ st.fs f := by rw [hf]; exact hne
      obtain ⟨hm, -, hor⟩ := processMatch_posix_frame cwd st hwf m f hne'
      rcases hor with h | h
      · exact hother m (by simp) hm h.symm
      · rw [hf] at h
        cases h
    exact ih _ (processMatch_posix_WF cwd st hwf m) hstep
      (fun m' hm' => hother m' (by simp [hm']))

/-- C8 (as stated) fails: with the blocks `a.txt` (body `1`), `a.txt` (body `2`)
and `./a.txt` (body `3`), two matched blocks have the same trimmed path and all
three writes succeed, yet after the run the file holds `3`, not the body of the
later of the two. -/
theorem C8_counterexample :
    (allMatches demoThreeWrites).map (fun m => (trim m.path, trim m.body))
      = [("a.txt".toList, "1".toList), ("a.txt".toList, "2".toList),
          ("./a.txt".toList, "3".toList)] ∧
    (processText posix "/w".toList demoThreeWrites ⟨onlyDir ["w".toList], 0, []⟩).log
      = [Msg.wroteFile ["w".toList, "a.txt".toList], Msg.wroteFile ["w".toList, "a.txt".toList],
          Msg.wroteFile ["w".toList, "a.txt".toList], Msg.successSummary 3] ∧
    (processText posix "/w".toList demoThreeWrites ⟨onlyDir ["w".toList], 0, []⟩).fs
        (pathResolve "/w".toList "a.txt".toList) = some (Node.file "3".toList) ∧
    (processText posix "/w".toList demoThreeWrites ⟨onlyDir ["w".toList], 0, []⟩).fs
        (pathResolve "/w".toList "a.txt".toList) ≠ some (Node.file "2".toList) := by
  decide

/-- C8 (amended): when two matched blocks have the same trimmed path and the
`try` block completes for both, each of them increments `filesCreated`, and after
the run the file holds the trimmed body of the later one, provided no match after
it resolves to the same file. -/
theorem C8_later_write_wins (cwd text : Str) (fs : FS) (hwf : fs.WF)
    (pre : List Match) (m1 : Match) (mid : List Match) (m2 : Match) (post : List Match)
    (hms : allMatches text = pre ++ m1 :: (mid ++ m2 :: post))
    (hp : trim m1.path = trim m2.path) (hne : trim m1.path ≠ [])
    (hok1 : (attempt posix cwd (processAll posix cwd ⟨fs, 0, []⟩ pre).fs m1).2 = true)
    (hok2 : (attempt posix cwd
      (processAll posix cwd ⟨fs, 0, []⟩ (pre ++ m1 :: mid)).fs m2).2 = true)
    (hlast : ∀ m ∈ post, trim m.path ≠ [] →
      pathResolve cwd (trim m.path) ≠ pathResolve cwd (trim m2.path)) :
    (processMatch posix cwd (processAll posix cwd ⟨fs, 0, []⟩ pre) m1).filesCreated
      = (processAll posix cwd ⟨fs, 0, []⟩ pre).filesCreated + 1 ∧
    (processMatch posix cwd (processAll posix cwd ⟨fs, 0, []⟩ (pre ++ m1 :: mid)) m2).filesCreated
      = (processAll posix cwd ⟨fs, 0, []⟩ (pre ++ m1 :: mid)).filesCreated + 1 ∧
    (processText posix cwd text ⟨fs, 0, []⟩).fs (pathResolve cwd (trim m2.path))
      = some (Node.file (trim m2.body)) := by
  have hne2 : trim m2.path ≠ [] := hp ▸ hne
  have c1 := (processMatch_attempt posix cwd (processAll posix cwd ⟨fs, 0, []⟩ pre) m1 hne).2.1
  have c2 := (processMatch_attempt posix cwd
    (processAll posix cwd ⟨fs, 0, []⟩ (pre ++ m1 :: mid)) m2 hne2).2.1
  refine ⟨by simpa [hok1] using c1, by simpa [hok2] using c2, ?_⟩
  have hwf2 : (processAll posix cwd ⟨fs, 0, []⟩ (pre ++ m1 :: mid)).fs.WF :=
    processAll_posix_WF cwd _ _ hwf
  have hfile := (processMatch_posix_success cwd
    (processAll posix cwd ⟨fs, 0, []⟩ (pre ++ m1 :: mid)) m2 hwf2 hne2 hok2).1
  have hrun : (processText posix cwd text ⟨fs, 0, []⟩).fs
      = (processAll posix cwd (processMatch posix cwd
          (processAll posix cwd ⟨fs, 0, []⟩ (pre ++ m1 :: mid)) m2) post).fs := by
    simp only [processText, loop_eq_processAll]
    have : pre ++ m1 :: (mid ++ m2 :: post) = (pre ++ m1 :: mid) ++ m2 :: post := by simp
    rw [hms, this, processAll_append, processAll_cons]
  rw [hrun]
  exact processAll_posix_keeps cwd _ _ post _ (processMatch_posix_WF cwd _ hwf2 m2) hfile hlast

/-- C8 (amended) on two blocks for `a.txt`. -/
theorem C8_later_write_wins_witness :
    ((onlyDir ["w".toList]).WF ∧
      allMatches "```markdown\n// FILE: a.txt\n1\n```\n```markdown\n// FILE: a.txt \n2\n```".toList
        = [] ++ ⟨"a.txt".toList, "1\n".toList, "\n```markdown\n// FILE: a.txt \n2\n```".toList⟩
          :: ([] ++ ⟨"a.txt".toList, "2\n".toList, []⟩ :: [])) ∧
    (processText posix "/w".toList
        "```markdown\n// FILE: a.txt\n1\n```\n```markdown\n// FILE: a.txt \n2\n```".toList
        ⟨onlyDir ["w".toList], 0, []⟩).fs (pathResolve "/w".toList (trim "a.txt".toList))
      = some (Node.file (trim "2\n".toList)) :=
  ⟨⟨onlyDir_WF _, by decide⟩,
    (C8_later_write_wins "/w".toList
      "```markdown\n// FILE: a.txt\n1\n```\n```markdown\n// FILE: a.txt \n2\n```".toList
      (onlyDir ["w".toList]) (onlyDir_WF _) []
      ⟨"a.txt".toList, "1\n".toList, "\n```markdown\n// FILE: a.txt \n2\n```".toList⟩ []
      ⟨"a.txt".toList, "2\n".toList, []⟩ [] (by decide) (by decide) (by decide) (by decide)
      (by decide) (by simp)).2.2⟩

end Btour
